import Mathlib

/-!
Verification of the Connect Four core (board model, win detection, and the
minimax/alpha-beta CPU move chooser) against its natural-language specification.

The board is column-major: 7 columns of 6 cells, row 0 at the bottom
(`board[col][row]` in the source).  Pure functions are embedded directly; the
in-place mutation of `placePiece`/`simulateMove` is embedded as functional
update (the function returns the updated board together with the row), and a
separate heap model is used for the aliasing/frame claims.  The `-1` row
sentinel of the source is embedded as `Option (Fin ROWS)`; JavaScript's
`±Infinity` score bounds are embedded as `⊥`/`⊤` of `WithBot (WithTop Int)`.
-/

namespace ConnectFour

/-- A cell of the grid: `0 = empty, 1 = player 1, 2 = player 2` in the source. -/
inductive Cell where
  | empty : Cell
  | p1 : Cell
  | p2 : Cell
deriving DecidableEq, Repr

/-- A player identifier (`1 | 2` in the source). -/
inductive Player where
  | one : Player
  | two : Player
deriving DecidableEq, Repr

/-- The cell value written for a player's piece. -/
def Player.toCell : Player → Cell
  | .one => .p1
  | .two => .p2

/-- Source `COLS = 7`. -/
abbrev COLS : Nat := 7

/-- Source `ROWS = 6`. -/
abbrev ROWS : Nat := 6

/-- Column-major board: `board col row` is the cell of column `col`, row `row`
(row 0 at the bottom). -/
def Board : Type := Fin COLS → Fin ROWS → Cell

/-- Source `createBoard`: the all-empty board. -/
def createBoard : Board := fun _ _ => Cell.empty

/-- Read `board[c][r]` for integer coordinates, which the win detector probes
possibly out of range; out-of-range reads never happen in the source because
the bounds check guards the access, so the default value is irrelevant. -/
def getCell (b : Board) (c r : Int) : Cell :=
  if h : 0 ≤ c ∧ c < (COLS : Int) ∧ 0 ≤ r ∧ r < (ROWS : Int) then
    b ⟨c.toNat, by omega⟩ ⟨r.toNat, by omega⟩
  else Cell.empty

/-- The loop-continue condition of `checkWin`'s while loops:
`c`,`r` in bounds and `board[c][r] === player`. -/
def cellIs (b : Board) (c r : Int) (p : Player) : Bool :=
  decide (0 ≤ c) && decide (c < (COLS : Int)) && decide (0 ≤ r) &&
    decide (r < (ROWS : Int)) && decide (getCell b c r = p.toCell)

/-- Source `getLowestEmptyRow`: scan the column bottom-up, return the first empty row;
`none` embeds the `-1` "column full" sentinel. -/
def getLowestEmptyRow (b : Board) (col : Fin COLS) : Option (Fin ROWS) :=
  (List.finRange ROWS).find? fun r => decide (b col r = Cell.empty)

/-- Functional update of one cell (the embedding of `board[col][row] = player`). -/
def setCell (b : Board) (col : Fin COLS) (row : Fin ROWS) (v : Cell) : Board :=
  fun c r => if c = col ∧ r = row then v else b c r

/-- Source `placePiece`: write `player` into the lowest empty row of `col` and return
that row, or return the board unchanged with the `none` sentinel when the
column is full.  The source mutates in place and returns the row; the embedding
returns the updated board alongside. -/
def placePiece (b : Board) (col : Fin COLS) (p : Player) : Board × Option (Fin ROWS) :=
  match getLowestEmptyRow b col with
  | none => (b, none)
  | some row => (setCell b col row p.toCell, some row)

/-- The four direction vectors of `checkWin` and `countPatterns`:
horizontal, vertical, diagonal ↗, diagonal ↘. -/
def directions : List (Int × Int) := [(1, 0), (0, 1), (1, 1), (1, -1)]

/-- One while loop of `checkWin`: count consecutive `player` cells from
`(c, r)` in direction `(dc, dr)`.  The source loop stops as soon as a probe
leaves the grid or meets a non-`player` cell; every direction moves at least
one coordinate each step, so it stops within 6 iterations — fuel 7 never runs
out and the fueled recursion equals the while loop. -/
def countDir (b : Board) (p : Player) (dc dr : Int) : Nat → Int → Int → Nat
  | 0, _, _ => 0
  | fuel + 1, c, r =>
    if cellIs b c r p then countDir b p dc dr fuel (c + dc) (r + dr) + 1 else 0

/-- The fuel bound for `countDir`; larger than any possible run inside the grid. -/
def FUEL : Nat := 7

/-- The run length `checkWin` computes for one direction: the placed cell
(counted once) plus the counts in the positive and the negative direction. -/
def lineCount (b : Board) (p : Player) (col row dc dr : Int) : Nat :=
  1 + countDir b p dc dr FUEL (col + dc) (row + dr)
    + countDir b p (-dc) (-dr) FUEL (col - dc) (row - dr)

/-- Source `checkWin board col row player`: true when some direction's total run
through the placed cell has length ≥ 4. -/
def checkWin (b : Board) (col row : Int) (p : Player) : Bool :=
  directions.any fun d => decide (4 ≤ lineCount b p col row d.1 d.2)

/-- Source `countPieces`: number of non-empty cells. -/
def countPieces (b : Board) : Nat :=
  ((List.finRange COLS).map fun col =>
    ((List.finRange ROWS).filter fun row => decide (b col row ≠ Cell.empty)).length).sum

/-- Source `checkDraw`: the board is completely full. -/
def checkDraw (b : Board) : Bool :=
  decide (COLS * ROWS ≤ countPieces b)

/-! ## The CPU player (`cpu.ts`) -/

/-- Source `SEARCH_DEPTH = 6`. -/
def SEARCH_DEPTH : Nat := 6

/-- Source `WIN_SCORE = 100000`. -/
def WIN_SCORE : Int := 100000

/-- Source `LOSE_SCORE = -100000`. -/
def LOSE_SCORE : Int := -100000

/-- Scores during the search are JavaScript numbers ranging over integers and
`±Infinity`; embedded as `Int` extended with a bottom (`-Infinity`) and a top
(`+Infinity`) element. -/
abbrev XInt : Type := WithBot (WithTop Int)

/-- Embed a finite score. -/
def toX (n : Int) : XInt := ((n : WithTop Int) : XInt)

/-- Source `cloneBoard`: a deep copy; in the pure value semantics this is the
identity (aliasing is treated in the heap model below). -/
def cloneBoard (b : Board) : Board := b

/-- The fixed center-first column order `[3, 2, 4, 1, 5, 0, 6]`. -/
def columnOrder : List (Fin COLS) := [3, 2, 4, 1, 5, 0, 6]

/-- Source `getValidMoves`: the non-full columns in center-first order. -/
def getValidMoves (b : Board) : List (Fin COLS) :=
  columnOrder.filter fun col => (getLowestEmptyRow b col).isSome

/-- Source `simulateMove`: place `player` on a clone of the board; returns the new
board and the row (in the source the row is `-1` when the column is full and
no write happens). -/
def simulateMove (b : Board) (col : Fin COLS) (p : Player) : Board × Option (Fin ROWS) :=
  let newBoard := cloneBoard b
  match getLowestEmptyRow newBoard col with
  | some row => (setCell newBoard col row p.toCell, some row)
  | none => (newBoard, none)

/-- Convert the embedded optional row back to the source's number
(`-1` sentinel when absent), as it is passed on to `checkWin`. -/
def rowInt : Option (Fin ROWS) → Int
  | none => -1
  | some r => (r : Int)

/-- Enumeration order of `countPatterns`'s triple loop: column 0..6 (outer),
row 0..5 (middle), the four directions (inner). -/
def windowTriples : List ((Int × Int) × (Int × Int)) :=
  ((List.range COLS).map Int.ofNat).flatMap fun c =>
    ((List.range ROWS).map Int.ofNat).flatMap fun r =>
      directions.map fun d => ((c, r), d)

/-- The 4-cell window probe of `countPatterns`: collect the cells at
`(col + i*dc, row + i*dr)` for `i = 0..3`, keeping only in-grid positions. -/
def collectWindow (b : Board) (col row dc dr : Int) : List Cell :=
  ([0, 1, 2, 3] : List Int).filterMap fun i =>
    let c := col + i * dc
    let r := row + i * dr
    if 0 ≤ c ∧ c < (COLS : Int) ∧ 0 ≤ r ∧ r < (ROWS : Int) then some (getCell b c r)
    else none

/-- Number of occurrences of a given cell value in a list of cells. -/
def countIn (cells : List Cell) (v : Cell) : Nat :=
  (cells.filter fun c => decide (c = v)).length

/-- Indicator of `countPatterns`'s `twos++`: a full 4-cell window, no opponent
cell (`playerCount + emptyCount = 4`), exactly 2 player cells and 2 empties. -/
def windowTwo (b : Board) (p : Player) (t : (Int × Int) × (Int × Int)) : Nat :=
  let cells := collectWindow b t.1.1 t.1.2 t.2.1 t.2.2
  let pc := countIn cells p.toCell
  let ec := countIn cells Cell.empty
  if cells.length = 4 ∧ pc + ec = 4 ∧ pc = 2 ∧ ec = 2 then 1 else 0

/-- Indicator of `countPatterns`'s `threes++`: a full 4-cell window, no
opponent cell, exactly 3 player cells and 1 empty. -/
def windowThree (b : Board) (p : Player) (t : (Int × Int) × (Int × Int)) : Nat :=
  let cells := collectWindow b t.1.1 t.1.2 t.2.1 t.2.2
  let pc := countIn cells p.toCell
  let ec := countIn cells Cell.empty
  if cells.length = 4 ∧ pc + ec = 4 ∧ pc = 3 ∧ ec = 1 then 1 else 0

/-- Source `countPatterns board player` as the pair `(twos, threes)`: the loop
increments the two counters independently over every (start, direction)
window, so each equals the sum of its indicator over `windowTriples`. -/
def countPatterns (b : Board) (p : Player) : Nat × Nat :=
  ((windowTriples.map (windowTwo b p)).sum, (windowTriples.map (windowThree b p)).sum)

/-- One column's positional term of `evaluateBoard`: `+w` per player-2 cell,
`-w` per player-1 cell. -/
def colScore (b : Board) (col : Fin COLS) (w : Int) : Int :=
  ((List.finRange ROWS).map fun row =>
    if b col row = Cell.p2 then w else if b col row = Cell.p1 then -w else 0).sum

/-- Source `evaluateBoard`: center-column weight 3, adjacent columns weight 2, plus
`50·threes + 10·twos` for the CPU (player 2) minus the same for the human
(player 1). -/
def evaluateBoard (b : Board) : Int :=
  let cpuPatterns := countPatterns b Player.two
  let humanPatterns := countPatterns b Player.one
  colScore b 3 3 + colScore b 2 2 + colScore b 4 2
    + (cpuPatterns.2 : Int) * 50 + (cpuPatterns.1 : Int) * 10
    - (humanPatterns.2 : Int) * 50 - (humanPatterns.1 : Int) * 10

/-- Source `wouldWin`: would placing `player` in `col` win immediately?  Returns
false on a full column; otherwise simulates the move and checks the win. -/
def wouldWin (b : Board) (col : Fin COLS) (p : Player) : Bool :=
  match getLowestEmptyRow b col with
  | none => false
  | some row =>
    let s := simulateMove b col p
    checkWin s.1 (col : Int) (row : Int) p

mutual

/-- Source `minimax board depth alpha beta isMaximizing`: terminal rules (draw,
depth 0), then the maximizing or minimizing loop over the valid moves. -/
def minimaxAB (b : Board) (depth : Nat) (alpha beta : XInt) (isMax : Bool) : XInt :=
  let validMoves := getValidMoves b
  if validMoves = [] then toX 0
  else
    match depth with
    | 0 => toX (evaluateBoard b)
    | n + 1 =>
      if isMax then abMaxLoop b n validMoves alpha beta ⊥
      else abMinLoop b n validMoves alpha beta ⊤
termination_by (depth, 0)

/-- The maximizing `for` loop of `minimax` at remaining depth `n + 1` (`n` is
the children's depth): win short-circuit, recursive score, running maximum,
alpha update, beta cutoff (`break` returns the running maximum). -/
def abMaxLoop (b : Board) (n : Nat) (moves : List (Fin COLS)) (alpha beta acc : XInt) : XInt :=
  match moves with
  | [] => acc
  | col :: rest =>
    let s := simulateMove b col Player.two
    if checkWin s.1 (col : Int) (rowInt s.2) Player.two then toX (WIN_SCORE + (n + 1 : Nat))
    else
      let score := minimaxAB s.1 n alpha beta false
      let acc' := max acc score
      let alpha' := max alpha score
      if beta ≤ alpha' then acc' else abMaxLoop b n rest alpha' beta acc'
termination_by (n, moves.length)

/-- The minimizing `for` loop of `minimax` at remaining depth `n + 1`:
opponent-win short-circuit, recursive score, running minimum, beta update,
alpha cutoff. -/
def abMinLoop (b : Board) (n : Nat) (moves : List (Fin COLS)) (alpha beta acc : XInt) : XInt :=
  match moves with
  | [] => acc
  | col :: rest =>
    let s := simulateMove b col Player.one
    if checkWin s.1 (col : Int) (rowInt s.2) Player.one then toX (LOSE_SCORE - (n + 1 : Nat))
    else
      let score := minimaxAB s.1 n alpha beta true
      let acc' := min acc score
      let beta' := min beta score
      if beta' ≤ alpha then acc' else abMinLoop b n rest alpha beta' acc'
termination_by (n, moves.length)

end

mutual

/-- Plain minimax: the spec's reference point — the same recursion with an
unrestricted window at every node and no cutoffs (no alpha/beta state, no
`break`), win short-circuits kept. -/
def minimaxP (b : Board) (depth : Nat) (isMax : Bool) : XInt :=
  let validMoves := getValidMoves b
  if validMoves = [] then toX 0
  else
    match depth with
    | 0 => toX (evaluateBoard b)
    | n + 1 =>
      if isMax then pMaxLoop b n validMoves ⊥
      else pMinLoop b n validMoves ⊤
termination_by (depth, 0)

/-- Maximizing loop of plain minimax. -/
def pMaxLoop (b : Board) (n : Nat) (moves : List (Fin COLS)) (acc : XInt) : XInt :=
  match moves with
  | [] => acc
  | col :: rest =>
    let s := simulateMove b col Player.two
    if checkWin s.1 (col : Int) (rowInt s.2) Player.two then toX (WIN_SCORE + (n + 1 : Nat))
    else
      let score := minimaxP s.1 n false
      pMaxLoop b n rest (max acc score)
termination_by (n, moves.length)

/-- Minimizing loop of plain minimax. -/
def pMinLoop (b : Board) (n : Nat) (moves : List (Fin COLS)) (acc : XInt) : XInt :=
  match moves with
  | [] => acc
  | col :: rest =>
    let s := simulateMove b col Player.one
    if checkWin s.1 (col : Int) (rowInt s.2) Player.one then toX (LOSE_SCORE - (n + 1 : Nat))
    else
      let score := minimaxP s.1 n true
      pMinLoop b n rest (min acc score)
termination_by (n, moves.length)

end

/-- The best-move selection loop of `getCpuMove`: strict improvement
(`score > bestScore`) keeps the first maximum in generator order. -/
def selectLoop (b : Board) (moves : List (Fin COLS)) (bestCol : Fin COLS) (bestScore : XInt) :
    Fin COLS :=
  match moves with
  | [] => bestCol
  | col :: rest =>
    let s := simulateMove b col Player.two
    let score := minimaxAB s.1 (SEARCH_DEPTH - 1) ⊥ ⊤ false
    if bestScore < score then selectLoop b rest col score
    else selectLoop b rest bestCol bestScore

/-- Source `getCpuMove`: `none` embeds the thrown `'No valid moves available'`;
otherwise the immediate-win scan, the block scan, then the minimax selection
over all valid moves starting from `bestCol = validMoves[0]`,
`bestScore = -Infinity`. -/
def getCpuMove (b : Board) : Option (Fin COLS) :=
  match getValidMoves b with
  | [] => none
  | m0 :: _ =>
    let validMoves := getValidMoves b
    match validMoves.find? (fun col => wouldWin b col Player.two) with
    | some c => some c
    | none =>
      match validMoves.find? (fun col => wouldWin b col Player.one) with
      | some c => some c
      | none => some (selectLoop b validMoves m0 ⊥)

/-- The spec-side selector for the refinement claim: identical to
`getCpuMove` except that the per-candidate scores come from plain
(unpruned, unrestricted-window) minimax. -/
def selectLoopPlain (b : Board) (moves : List (Fin COLS)) (bestCol : Fin COLS)
    (bestScore : XInt) : Fin COLS :=
  match moves with
  | [] => bestCol
  | col :: rest =>
    let s := simulateMove b col Player.two
    let score := minimaxP s.1 (SEARCH_DEPTH - 1) false
    if bestScore < score then selectLoopPlain b rest col score
    else selectLoopPlain b rest bestCol bestScore

/-- The spec-side move chooser built on plain minimax. -/
def getCpuMovePlain (b : Board) : Option (Fin COLS) :=
  match getValidMoves b with
  | [] => none
  | m0 :: _ =>
    let validMoves := getValidMoves b
    match validMoves.find? (fun col => wouldWin b col Player.two) with
    | some c => some c
    | none =>
      match validMoves.find? (fun col => wouldWin b col Player.one) with
      | some c => some c
      | none => some (selectLoopPlain b validMoves m0 ⊥)

/-! ## Spec-side definitions

These follow the specification's words, to be compared with the definitions
translated from the source. -/

/-- Spec-side win condition: some run of 4 or more contiguous same-player
cells through `(col, row)` along one of the four directions, counting only
in-grid cells of that player (`cellIs`).  The run is the set of offsets
`k ∈ [a, bnd]` along the direction, containing the placed cell (`a ≤ 0 ≤ bnd`)
and spanning at least 4 cells (`bnd - a ≥ 3`). -/
def hasRunThrough (b : Board) (col row : Int) (p : Player) : Prop :=
  ∃ d ∈ directions, ∃ a bnd : Int, a ≤ 0 ∧ 0 ≤ bnd ∧ 3 ≤ bnd - a ∧
    ∀ k : Int, a ≤ k → k ≤ bnd → cellIs b (col + k * d.1) (row + k * d.2) p = true

/-- Number of cells of one value in a column (spec-side counting for the
positional weight). -/
def countCells (b : Board) (col : Fin COLS) (v : Cell) : Nat :=
  ((List.finRange ROWS).filter fun row => decide (b col row = v)).length

/-- Spec-side: is the whole 4-cell window starting at `t.1` in direction `t.2`
inside the 7×6 grid? -/
def inGridWindow (t : (Int × Int) × (Int × Int)) : Bool :=
  ([0, 1, 2, 3] : List Int).all fun i =>
    decide (0 ≤ t.1.1 + i * t.2.1 ∧ t.1.1 + i * t.2.1 < (COLS : Int) ∧
      0 ≤ t.1.2 + i * t.2.2 ∧ t.1.2 + i * t.2.2 < (ROWS : Int))

/-- Spec-side: all 4-cell windows in the four line directions (the in-grid
ones among all start/direction pairs). -/
def specWindows : List ((Int × Int) × (Int × Int)) :=
  windowTriples.filter inGridWindow

/-- Spec-side: the four cells of an in-grid window. -/
def windowCellsSpec (b : Board) (t : (Int × Int) × (Int × Int)) : List Cell :=
  ([0, 1, 2, 3] : List Int).map fun i => getCell b (t.1.1 + i * t.2.1) (t.1.2 + i * t.2.2)

/-- Spec-side score of one window for one player: if the window contains no
opponent cell, `+10` for exactly 2 player cells and 2 empties, `+50` for
exactly 3 player cells and 1 empty. -/
def windowScoreFor (b : Board) (p : Player) (t : (Int × Int) × (Int × Int)) : Int :=
  let cells := windowCellsSpec b t
  let pc := countIn cells p.toCell
  let ec := countIn cells Cell.empty
  if pc + ec = 4 then
    if pc = 2 ∧ ec = 2 then 10 else if pc = 3 ∧ ec = 1 then 50 else 0
  else 0

/-- Spec-side evaluator: `±3` per occupied cell of the middle column, `±2`
per occupied cell of the adjacent columns, plus the window scores for
player 2 minus those for player 1. -/
def evalSpec (b : Board) : Int :=
  3 * (countCells b 3 Cell.p2 : Int) - 3 * (countCells b 3 Cell.p1 : Int)
    + 2 * (countCells b 2 Cell.p2 : Int) - 2 * (countCells b 2 Cell.p1 : Int)
    + 2 * (countCells b 4 Cell.p2 : Int) - 2 * (countCells b 4 Cell.p1 : Int)
    + (specWindows.map (windowScoreFor b Player.two)).sum
    - (specWindows.map (windowScoreFor b Player.one)).sum

/-! ## Heap model

The frame claim is about aliasing: `cloneBoard` makes a deep copy and the
search writes only to its clones, never to the caller's board.  The pure value
semantics cannot express that, so the mutating functions are re-embedded over
an explicit store: a board is a list of 7 column identifiers, the store maps
each identifier to the column's cells, and `board[col][row] = player` is a
store write through the column identifier.  Allocation is a bump counter. -/

/-- The store: allocation counter and the contents of each allocated column. -/
structure HState where
  next : Nat
  mem : Nat → List Cell

/-- A board in the heap model: the column identifiers (the outer array of the
source is never mutated, only the column arrays are). -/
abbrev BoardH : Type := List Nat

/-- Read a heap board as a pure board value. -/
def viewH (st : HState) (bh : BoardH) : Board :=
  fun c r => ((st.mem (bh.getD c.val 0)).getD r.val Cell.empty)

/-- Allocate a fresh column holding `content` (the `[...col]` copy). -/
def allocCol (st : HState) (content : List Cell) : Nat × HState :=
  (st.next, ⟨st.next + 1, fun i => if i = st.next then content else st.mem i⟩)

/-- Source `cloneBoard` in the heap model: `board.map((col) => [...col])` — a new
column array, with copied contents, for every column. -/
def cloneColsH : BoardH → HState → BoardH × HState
  | [], st => ([], st)
  | cid :: rest, st =>
    let a := allocCol st (st.mem cid)
    let res := cloneColsH rest a.2
    (a.1 :: res.1, res.2)

/-- Write one cell of one column through its identifier
(`newBoard[col][row] = player`). -/
def writeCellH (st : HState) (colId : Nat) (r : Nat) (v : Cell) : HState :=
  ⟨st.next, fun i => if i = colId then (st.mem colId).set r v else st.mem i⟩

/-- Source `simulateMove` in the heap model: clone, then write the placed piece into
the clone's column. -/
def simulateMoveH (st : HState) (bh : BoardH) (col : Fin COLS) (p : Player) :
    (BoardH × Option (Fin ROWS)) × HState :=
  let c := cloneColsH bh st
  match getLowestEmptyRow (viewH c.2 c.1) col with
  | some row => ((c.1, some row), writeCellH c.2 (c.1.getD col.val 0) row.val p.toCell)
  | none => ((c.1, none), c.2)

/-- Source `wouldWin` in the heap model. -/
def wouldWinH (st : HState) (bh : BoardH) (col : Fin COLS) (p : Player) : Bool × HState :=
  match getLowestEmptyRow (viewH st bh) col with
  | none => (false, st)
  | some row =>
    let s := simulateMoveH st bh col p
    (checkWin (viewH s.2 s.1.1) (col : Int) (row : Int) p, s.2)

mutual

/-- Source `minimax` in the heap model: the same recursion with the store threaded
through every simulated placement. -/
def minimaxABH (st : HState) (bh : BoardH) (depth : Nat) (alpha beta : XInt) (isMax : Bool) :
    XInt × HState :=
  let validMoves := getValidMoves (viewH st bh)
  if validMoves = [] then (toX 0, st)
  else
    match depth with
    | 0 => (toX (evaluateBoard (viewH st bh)), st)
    | n + 1 =>
      if isMax then abMaxLoopH st bh n validMoves alpha beta ⊥
      else abMinLoopH st bh n validMoves alpha beta ⊤
termination_by (depth, 0)

/-- Maximizing loop of `minimax` in the heap model. -/
def abMaxLoopH (st : HState) (bh : BoardH) (n : Nat) (moves : List (Fin COLS))
    (alpha beta acc : XInt) : XInt × HState :=
  match moves with
  | [] => (acc, st)
  | col :: rest =>
    let sm := simulateMoveH st bh col Player.two
    if checkWin (viewH sm.2 sm.1.1) (col : Int) (rowInt sm.1.2) Player.two then
      (toX (WIN_SCORE + (n + 1 : Nat)), sm.2)
    else
      let res := minimaxABH sm.2 sm.1.1 n alpha beta false
      let acc' := max acc res.1
      let alpha' := max alpha res.1
      if beta ≤ alpha' then (acc', res.2) else abMaxLoopH res.2 bh n rest alpha' beta acc'
termination_by (n, moves.length)

/-- Minimizing loop of `minimax` in the heap model. -/
def abMinLoopH (st : HState) (bh : BoardH) (n : Nat) (moves : List (Fin COLS))
    (alpha beta acc : XInt) : XInt × HState :=
  match moves with
  | [] => (acc, st)
  | col :: rest =>
    let sm := simulateMoveH st bh col Player.one
    if checkWin (viewH sm.2 sm.1.1) (col : Int) (rowInt sm.1.2) Player.one then
      (toX (LOSE_SCORE - (n + 1 : Nat)), sm.2)
    else
      let res := minimaxABH sm.2 sm.1.1 n alpha beta true
      let acc' := min acc res.1
      let beta' := min beta res.1
      if beta' ≤ alpha then (acc', res.2) else abMinLoopH res.2 bh n rest alpha beta' acc'
termination_by (n, moves.length)

end

/-- The immediate-win / block scans of `getCpuMove` in the heap model. -/
def winScanH (bh : BoardH) (p : Player) : HState → List (Fin COLS) → Option (Fin COLS) × HState
  | st, [] => (none, st)
  | st, col :: rest =>
    let r := wouldWinH st bh col p
    if r.1 then (some col, r.2) else winScanH bh p r.2 rest

/-- The best-move selection loop of `getCpuMove` in the heap model. -/
def selectLoopH (bh : BoardH) :
    HState → List (Fin COLS) → Fin COLS → XInt → Fin COLS × HState
  | st, [], bestCol, _ => (bestCol, st)
  | st, col :: rest, bestCol, bestScore =>
    let sm := simulateMoveH st bh col Player.two
    let res := minimaxABH sm.2 sm.1.1 (SEARCH_DEPTH - 1) ⊥ ⊤ false
    if bestScore < res.1 then selectLoopH bh res.2 rest col res.1
    else selectLoopH bh res.2 rest bestCol bestScore

/-- Source `getCpuMove` in the heap model. -/
def getCpuMoveH (st : HState) (bh : BoardH) : Option (Fin COLS) × HState :=
  match getValidMoves (viewH st bh) with
  | [] => (none, st)
  | m0 :: _ =>
    let validMoves := getValidMoves (viewH st bh)
    let ws := winScanH bh Player.two st validMoves
    match ws.1 with
    | some c => (some c, ws.2)
    | none =>
      let bs := winScanH bh Player.one ws.2 validMoves
      match bs.1 with
      | some c => (some c, bs.2)
      | none =>
        let sel := selectLoopH bh bs.2 validMoves m0 ⊥
        (some sel.1, sel.2)

/-- The frame relation: allocation only moves forward and the contents of
every already-allocated column are untouched. -/
def FrameH (st st' : HState) : Prop :=
  st.next ≤ st'.next ∧ ∀ i < st.next, st'.mem i = st.mem i

/-! ## Concrete boards used by the witness theorems -/

/-- A completely full board (all cells player 1). -/
def bFull : Board := fun _ _ => Cell.p1

/-- Player 2 pieces at columns 0, 1, 2 of the bottom row — player 2 wins
immediately at column 3. -/
def bWin2 : Board := fun c r =>
  if (c.val = 0 ∨ c.val = 1 ∨ c.val = 2) ∧ r.val = 0 then Cell.p2 else Cell.empty

/-- Player 1 pieces at columns 0, 1, 2 of the bottom row — player 1 threatens
at column 3 and the automated player must block. -/
def bWin1 : Board := fun c r =>
  if (c.val = 0 ∨ c.val = 1 ∨ c.val = 2) ∧ r.val = 0 then Cell.p1 else Cell.empty

/-- The board `bWin2` after the winning placement at (3, 0). -/
def bWin2Done : Board := setCell bWin2 3 0 Cell.p2

/-- A fresh 7-column heap store whose columns 0..6 are the all-empty columns
(the heap counterpart of the empty board). -/
def stInit : HState :=
  ⟨7, fun i => if i < 7 then
    [Cell.empty, Cell.empty, Cell.empty, Cell.empty, Cell.empty, Cell.empty] else []⟩

/-- The heap board referring to the 7 initial columns. -/
def bhInit : BoardH := [0, 1, 2, 3, 4, 5, 6]

/-! ## Helper lemmas -/

theorem sum_le_length_mul {α : Type} (l : List α) (f : α → Int) (w : Int)
    (h : ∀ x ∈ l, f x ≤ w) : (l.map f).sum ≤ (l.length : Int) * w := by
  induction l with
  | nil => simp
  | cons a t ih =>
    have h1 := h a (by simp)
    have h2 := ih fun x hx => h x (by simp [hx])
    simp only [List.map_cons, List.sum_cons, List.length_cons]
    push_cast
    linarith

theorem length_mul_le_sum {α : Type} (l : List α) (f : α → Int) (w : Int)
    (h : ∀ x ∈ l, w ≤ f x) : (l.length : Int) * w ≤ (l.map f).sum := by
  induction l with
  | nil => simp
  | cons a t ih =>
    have h1 := h a (by simp)
    have h2 := ih fun x hx => h x (by simp [hx])
    simp only [List.map_cons, List.sum_cons, List.length_cons]
    push_cast
    linarith

theorem nat_sum_le_length {α : Type} (l : List α) (f : α → Nat)
    (h : ∀ x ∈ l, f x ≤ 1) : (l.map f).sum ≤ l.length := by
  induction l with
  | nil => simp
  | cons a t ih =>
    have h1 := h a (by simp)
    have h2 := ih fun x hx => h x (by simp [hx])
    simp only [List.map_cons, List.sum_cons, List.length_cons]
    omega

set_option maxRecDepth 4000 in
theorem windowTriples_length : windowTriples.length = 168 := by decide

theorem countPatterns_le (b : Board) (p : Player) :
    (countPatterns b p).1 ≤ 168 ∧ (countPatterns b p).2 ≤ 168 := by
  constructor
  · refine le_trans (nat_sum_le_length _ _ ?_) (le_of_eq windowTriples_length)
    intro t _
    simp only [windowTwo]
    split <;> simp
  · refine le_trans (nat_sum_le_length _ _ ?_) (le_of_eq windowTriples_length)
    intro t _
    simp only [windowThree]
    split <;> simp

theorem colScore_bounds (b : Board) (col : Fin COLS) (w : Int) (hw : 0 ≤ w) :
    -(6 * w) ≤ colScore b col w ∧ colScore b col w ≤ 6 * w := by
  have hlen : (List.finRange ROWS).length = 6 := by simp
  constructor
  · have := length_mul_le_sum (List.finRange ROWS)
      (fun row => if b col row = Cell.p2 then w else if b col row = Cell.p1 then -w else 0)
      (-w) ?_
    · rw [hlen] at this
      push_cast at this
      unfold colScore
      linarith
    · intro x _
      dsimp only
      split_ifs <;> omega
  · have := sum_le_length_mul (List.finRange ROWS)
      (fun row => if b col row = Cell.p2 then w else if b col row = Cell.p1 then -w else 0)
      w ?_
    · rw [hlen] at this
      push_cast at this
      unfold colScore
      linarith
    · intro x _
      dsimp only
      split_ifs <;> omega

/-! ## C10: heuristic scores are dominated by win/loss scores -/

/-- C10: for every board the heuristic evaluation is strictly below
`WIN_SCORE` in absolute value, so `WIN_SCORE + d` strictly exceeds and
`LOSE_SCORE - d` is strictly below every depth-0 heuristic score. -/
theorem evaluateBoard_abs_lt_win : ∀ b : Board,
    |evaluateBoard b| < WIN_SCORE ∧
    ∀ d : Nat, evaluateBoard b < WIN_SCORE + (d : Int) ∧
      LOSE_SCORE - (d : Int) < evaluateBoard b := by
  intro b
  have h2 := countPatterns_le b Player.two
  have h1 := countPatterns_le b Player.one
  have hc3 := colScore_bounds b 3 3 (by norm_num)
  have hc2 := colScore_bounds b 2 2 (by norm_num)
  have hc4 := colScore_bounds b 4 2 (by norm_num)
  have hb : |evaluateBoard b| < WIN_SCORE := by
    simp only [evaluateBoard, WIN_SCORE]
    rw [abs_lt]
    obtain ⟨h2a, h2b⟩ := h2
    obtain ⟨h1a, h1b⟩ := h1
    obtain ⟨hc3a, hc3b⟩ := hc3
    obtain ⟨hc2a, hc2b⟩ := hc2
    obtain ⟨hc4a, hc4b⟩ := hc4
    constructor <;> omega
  refine ⟨hb, fun d => ?_⟩
  have hd : (0 : Int) ≤ (d : Int) := Int.ofNat_nonneg d
  rw [abs_lt] at hb
  unfold WIN_SCORE LOSE_SCORE at *
  omega


/-! ## C4: terminal rules of the search -/

/-- C4: `minimax` applies its terminal rules in priority order: an empty move
list scores 0 at every depth (also at depth 0); with moves left, depth 0
returns the heuristic evaluation; during the scan a winning simulated
placement for the active player immediately returns `WIN_SCORE + depth`
(maximizing) or `LOSE_SCORE - depth` (minimizing) without recursing; and the
depth bias orders shallower wins strictly above deeper ones and shallower
losses strictly below. -/
theorem minimax_terminal_rules :
    ∀ (b : Board) (depth : Nat) (alpha beta : XInt) (isMax : Bool),
      (getValidMoves b = [] → minimaxAB b depth alpha beta isMax = toX 0) ∧
      (getValidMoves b ≠ [] → minimaxAB b 0 alpha beta isMax = toX (evaluateBoard b)) ∧
      (∀ (n : Nat) (col : Fin COLS) (rest : List (Fin COLS)) (acc : XInt),
        checkWin (simulateMove b col Player.two).1 (col : Int)
            (rowInt (simulateMove b col Player.two).2) Player.two = true →
        abMaxLoop b n (col :: rest) alpha beta acc = toX (WIN_SCORE + (n + 1 : Nat))) ∧
      (∀ (n : Nat) (col : Fin COLS) (rest : List (Fin COLS)) (acc : XInt),
        checkWin (simulateMove b col Player.one).1 (col : Int)
            (rowInt (simulateMove b col Player.one).2) Player.one = true →
        abMinLoop b n (col :: rest) alpha beta acc = toX (LOSE_SCORE - (n + 1 : Nat))) ∧
      (∀ d d' : Nat, d < d' →
        WIN_SCORE + (d : Int) < WIN_SCORE + (d' : Int) ∧
        LOSE_SCORE - (d' : Int) < LOSE_SCORE - (d : Int)) := by
  intro b depth alpha beta isMax
  refine ⟨?_, ?_, ?_, ?_, ?_⟩
  · intro h
    rw [minimaxAB.eq_def]
    simp [h]
  · intro h
    rw [minimaxAB.eq_def]
    simp [h]
  · intro n col rest acc h
    rw [abMaxLoop.eq_def]
    simp [h]
  · intro n col rest acc h
    rw [abMinLoop.eq_def]
    simp [h]
  · intro d d' h
    unfold WIN_SCORE LOSE_SCORE
    omega

/-- Witness for C4 at concrete inputs: the full board scores 0 at positive
depth, the `bWin2` board evaluates heuristically at depth 0, and the winning
placements short-circuit both loops. -/
theorem minimax_terminal_rules_witness :
    minimaxAB bFull 3 ⊥ ⊤ true = toX 0 ∧
    minimaxAB bWin2 0 ⊥ ⊤ false = toX (evaluateBoard bWin2) ∧
    abMaxLoop bWin2 0 (3 :: []) ⊥ ⊤ ⊥ = toX (WIN_SCORE + (0 + 1 : Nat)) ∧
    abMinLoop bWin1 0 (3 :: []) ⊥ ⊤ ⊤ = toX (LOSE_SCORE - (0 + 1 : Nat)) :=
  ⟨(minimax_terminal_rules bFull 3 ⊥ ⊤ true).1 (by decide),
   (minimax_terminal_rules bWin2 0 ⊥ ⊤ false).2.1 (by decide),
   (minimax_terminal_rules bWin2 0 ⊥ ⊤ true).2.2.1 0 3 [] ⊥ (by decide),
   (minimax_terminal_rules bWin1 0 ⊥ ⊤ true).2.2.2.1 0 3 [] ⊤ (by decide)⟩

/-! ## C9: the no-legal-move failure condition -/

/-- C9: `getCpuMove` fails (returns the embedded thrown error, `none`) exactly
when there are no valid moves, which happens exactly when every column is
full; with at least one non-full column it returns a column. -/
theorem getCpuMove_none_iff :
    ∀ b : Board,
      (getCpuMove b = none ↔ getValidMoves b = []) ∧
      (getValidMoves b = [] ↔ ∀ c r, b c r ≠ Cell.empty) ∧
      (getValidMoves b ≠ [] → ∃ c, getCpuMove b = some c) := by
  intro b
  have hfull : getValidMoves b = [] ↔ ∀ c r, b c r ≠ Cell.empty := by
    unfold getValidMoves
    rw [List.filter_eq_nil_iff]
    constructor
    · intro h c r hc
      have hmem : c ∈ columnOrder := by
        fin_cases c <;> decide
      have h2 := h c hmem
      have h3 : getLowestEmptyRow b c = none := by
        cases hlow : getLowestEmptyRow b c
        · rfl
        · rw [hlow] at h2
          simp at h2
      unfold getLowestEmptyRow at h3
      rw [List.find?_eq_none] at h3
      have h4 := h3 r (List.mem_finRange r)
      simp only [decide_eq_true_eq] at h4
      exact h4 hc
    · intro h col _
      have h3 : getLowestEmptyRow b col = none := by
        unfold getLowestEmptyRow
        rw [List.find?_eq_none]
        intro r _
        simpa using h col r
      simp [h3]
  refine ⟨?_, hfull, ?_⟩
  · constructor
    · intro h
      by_contra hne
      obtain ⟨m0, rest, hm⟩ := List.exists_cons_of_ne_nil hne
      simp only [getCpuMove, hm] at h
      split at h
      · simp_all
      · split at h <;> simp_all
    · intro h
      simp only [getCpuMove, h]
  · intro hne
    obtain ⟨m0, rest, hm⟩ := List.exists_cons_of_ne_nil hne
    simp only [getCpuMove, hm]
    split
    · exact ⟨_, rfl⟩
    · split
      · exact ⟨_, rfl⟩
      · exact ⟨_, rfl⟩

/-- Witness for C9: the empty board has valid moves and the chooser returns a
column. -/
theorem getCpuMove_none_iff_witness :
    getValidMoves createBoard ≠ [] → ∃ c, getCpuMove createBoard = some c :=
  fun h => (getCpuMove_none_iff createBoard).2.2 h


/-! ## C2 and C3: the immediate-win and block scans -/

/-- C2: whenever some valid column is an immediate win for the automated
player (player 2), `getCpuMove` returns such a winning column — regardless of
any threat of the opponent, since the win scan runs first. -/
theorem getCpuMove_takes_win :
    ∀ (b : Board) (col₀ : Fin COLS), col₀ ∈ getValidMoves b →
      wouldWin b col₀ Player.two = true →
      ∃ c, getCpuMove b = some c ∧ wouldWin b c Player.two = true := by
  intro b col₀ hmem hwin
  have hne : getValidMoves b ≠ [] := List.ne_nil_of_mem hmem
  obtain ⟨m0, rest, hm⟩ := List.exists_cons_of_ne_nil hne
  have hsome : ((getValidMoves b).find? fun col => wouldWin b col Player.two).isSome := by
    rw [List.find?_isSome]
    exact ⟨col₀, hmem, hwin⟩
  obtain ⟨c, hc⟩ := Option.isSome_iff_exists.mp hsome
  have hcWin : wouldWin b c Player.two = true := by
    have := List.find?_some hc
    simpa using this
  rw [hm] at hc
  refine ⟨c, ?_, hcWin⟩
  simp only [getCpuMove, hm, hc]

/-- Witness for C2: on `bWin2` (player 2 at columns 0–2 of the bottom row)
column 3 is valid and winning, and the chooser returns a winning column. -/
theorem getCpuMove_takes_win_witness :
    ∃ c, getCpuMove bWin2 = some c ∧ wouldWin bWin2 c Player.two = true :=
  getCpuMove_takes_win bWin2 3 (by decide) (by decide)

/-- C3: when no valid column wins immediately for the automated player and
exactly one valid column is an immediate win for the opponent, `getCpuMove`
returns that blocking column. -/
theorem getCpuMove_blocks :
    ∀ (b : Board) (bc : Fin COLS),
      (∀ col ∈ getValidMoves b, wouldWin b col Player.two = false) →
      bc ∈ getValidMoves b →
      wouldWin b bc Player.one = true →
      (∀ col ∈ getValidMoves b, wouldWin b col Player.one = true → col = bc) →
      getCpuMove b = some bc := by
  intro b bc hno2 hmem hwin huniq
  have hne : getValidMoves b ≠ [] := List.ne_nil_of_mem hmem
  obtain ⟨m0, rest, hm⟩ := List.exists_cons_of_ne_nil hne
  have hfind2 : ((getValidMoves b).find? fun col => wouldWin b col Player.two) = none := by
    rw [List.find?_eq_none]
    intro x hx
    simp [hno2 x hx]
  have hsome : ((getValidMoves b).find? fun col => wouldWin b col Player.one).isSome := by
    rw [List.find?_isSome]
    exact ⟨bc, hmem, hwin⟩
  obtain ⟨c, hc⟩ := Option.isSome_iff_exists.mp hsome
  have hcWin : wouldWin b c Player.one = true := by
    have := List.find?_some hc
    simpa using this
  have hcMem : c ∈ getValidMoves b := List.mem_of_find?_eq_some hc
  have hcbc : c = bc := huniq c hcMem hcWin
  subst hcbc
  rw [hm] at hfind2 hc
  simp only [getCpuMove, hm, hfind2, hc]

/-- Witness for C3: on `bWin1` (player 1 at columns 0–2 of the bottom row)
player 2 has no immediate win, column 3 is the opponent's only winning
column, and the chooser blocks there. -/
theorem getCpuMove_blocks_witness : getCpuMove bWin1 = some 3 :=
  getCpuMove_blocks bWin1 3 (by decide) (by decide) (by decide) (by decide)

/-! ## C6: placePiece on full and non-full columns -/

theorem getLowestEmptyRow_eq_none_iff (b : Board) (col : Fin COLS) :
    getLowestEmptyRow b col = none ↔ ∀ r, b col r ≠ Cell.empty := by
  unfold getLowestEmptyRow
  rw [List.find?_eq_none]
  constructor
  · intro h r hr
    have h4 := h r (List.mem_finRange r)
    simp only [decide_eq_true_eq] at h4
    exact h4 hr
  · intro h r _
    simpa using h r

theorem getLowestEmptyRow_eq_some_iff (b : Board) (col : Fin COLS) (r0 : Fin ROWS) :
    getLowestEmptyRow b col = some r0 ↔
      (b col r0 = Cell.empty ∧ ∀ r' : Fin ROWS, r' < r0 → b col r' ≠ Cell.empty) := by
  unfold getLowestEmptyRow
  rw [List.find?_eq_some_iff_getElem]
  simp only [decide_eq_true_eq, Bool.not_eq_eq_eq_not, Bool.not_true, decide_eq_false_iff_not]
  constructor
  · rintro ⟨hp, i, hi, hg, hb⟩
    have hlen : i < ROWS := by simpa using hi
    have hgi : (List.finRange ROWS)[i] = (⟨i, hlen⟩ : Fin ROWS) := by
      simp [List.getElem_finRange]
    rw [hgi] at hg
    refine ⟨hp, fun r' hr' => ?_⟩
    have hr'i : r'.val < i := by
      have : r0 = ⟨i, hlen⟩ := hg.symm
      rw [this] at hr'
      exact hr'
    have := hb r'.val (by simpa using hr'i)
    have hgr' : (List.finRange ROWS)[r'.val] = r' := by
      simp [List.getElem_finRange]
    rwa [hgr'] at this
  · rintro ⟨hp, hlow⟩
    refine ⟨hp, r0.val, by simp, ?_, ?_⟩
    · simp [List.getElem_finRange]
    · intro j hj
      have hjlt : j < ROWS := lt_trans hj r0.isLt
      have hgj : (List.finRange ROWS)[j] = (⟨j, hjlt⟩ : Fin ROWS) := by
        simp [List.getElem_finRange]
      rw [hgj]
      exact hlow ⟨j, hjlt⟩ hj

/-- C6: placing into a full column returns the `none` sentinel and leaves
every cell unchanged; otherwise the piece is written into the lowest empty
row (the least empty row index), all other cells are unchanged, and that row
is returned. -/
theorem placePiece_correct :
    ∀ (b : Board) (col : Fin COLS) (p : Player),
      ((∀ r, b col r ≠ Cell.empty) →
        (placePiece b col p).2 = none ∧ ∀ c r, (placePiece b col p).1 c r = b c r) ∧
      (∀ r0 : Fin ROWS, b col r0 = Cell.empty →
        (∀ r' : Fin ROWS, r' < r0 → b col r' ≠ Cell.empty) →
        (placePiece b col p).2 = some r0 ∧
        (placePiece b col p).1 col r0 = p.toCell ∧
        ∀ c r, ¬(c = col ∧ r = r0) → (placePiece b col p).1 c r = b c r) := by
  intro b col p
  constructor
  · intro hfull
    have h : getLowestEmptyRow b col = none := (getLowestEmptyRow_eq_none_iff b col).mpr hfull
    unfold placePiece
    rw [h]
    exact ⟨rfl, fun _ _ => rfl⟩
  · intro r0 hemp hlow
    have h : getLowestEmptyRow b col = some r0 :=
      (getLowestEmptyRow_eq_some_iff b col r0).mpr ⟨hemp, hlow⟩
    unfold placePiece
    rw [h]
    refine ⟨rfl, ?_, ?_⟩
    · simp [setCell]
    · intro c r hcr
      simp [setCell, hcr]

/-- Witness for C6: on the empty board, placing in column 0 writes player 1's
piece at row 0; on the full board the placement is rejected without change. -/
theorem placePiece_correct_witness :
    ((placePiece bFull 0 Player.one).2 = none ∧
      ∀ c r, (placePiece bFull 0 Player.one).1 c r = bFull c r) ∧
    ((placePiece createBoard 0 Player.one).2 = some 0 ∧
      (placePiece createBoard 0 Player.one).1 0 0 = Player.one.toCell ∧
      ∀ c r, ¬(c = 0 ∧ r = 0) → (placePiece createBoard 0 Player.one).1 c r = createBoard c r) :=
  ⟨(placePiece_correct bFull 0 Player.one).1 (by decide),
   (placePiece_correct createBoard 0 Player.one).2 0 (by decide)
     (fun r' hr' => absurd hr' (by simp [Fin.lt_def]))⟩


/-! ## C5: checkWin detects exactly the 4-or-more runs through the cell -/

theorem cellIs_bounds {b : Board} {c r : Int} {p : Player} (h : cellIs b c r p = true) :
    0 ≤ c ∧ c < (COLS : Int) ∧ 0 ≤ r ∧ r < (ROWS : Int) := by
  unfold cellIs at h
  simp only [Bool.and_eq_true, decide_eq_true_eq] at h
  exact ⟨h.1.1.1.1, h.1.1.1.2, h.1.1.2, h.1.2⟩

theorem countDir_mem {b : Board} {p : Player} {dc dr : Int} :
    ∀ (fuel : Nat) (c r : Int) (k : Nat), k < countDir b p dc dr fuel c r →
      cellIs b (c + (k : Int) * dc) (r + (k : Int) * dr) p = true := by
  intro fuel
  induction fuel with
  | zero => intro c r k hk; simp [countDir] at hk
  | succ m ih =>
    intro c r k hk
    rw [countDir] at hk
    by_cases h : cellIs b c r p = true
    · rw [if_pos h] at hk
      match k with
      | 0 => simpa using h
      | j + 1 =>
        have hj : j < countDir b p dc dr m (c + dc) (r + dr) := by omega
        have := ih (c + dc) (r + dr) j hj
        have heq1 : c + dc + (j : Int) * dc = c + ((j : Nat) + 1 : Int) * dc := by ring
        have heq2 : r + dr + (j : Int) * dr = r + ((j : Nat) + 1 : Int) * dr := by ring
        rw [heq1, heq2] at this
        convert this using 3
    · rw [if_neg h] at hk
      omega

theorem countDir_ge {b : Board} {p : Player} {dc dr : Int} :
    ∀ (fuel n : Nat) (c r : Int),
      (∀ k : Nat, k < n → cellIs b (c + (k : Int) * dc) (r + (k : Int) * dr) p = true) →
      min fuel n ≤ countDir b p dc dr fuel c r := by
  intro fuel
  induction fuel with
  | zero => intro n c r _; simp
  | succ m ih =>
    intro n c r h
    match n with
    | 0 => simp
    | q + 1 =>
      have h0 : cellIs b c r p = true := by simpa using h 0 (by omega)
      rw [countDir, if_pos h0]
      have hrec := ih q (c + dc) (r + dr) ?_
      · omega
      · intro k hk
        have := h (k + 1) (by omega)
        have heq1 : c + ((k : Nat) + 1 : Int) * dc = c + dc + (k : Int) * dc := by ring
        have heq2 : r + ((k : Nat) + 1 : Int) * dr = r + dr + (k : Int) * dr := by ring
        rw [← heq1, ← heq2] at *
        convert this using 3

/-- C5: under the claim's hypothesis that `(col, row)` is an in-range cell
holding `player`'s piece, `checkWin` is true exactly when some contiguous run
of 4 or more same-player in-grid cells passes through `(col, row)` along one
of the four directions. -/
theorem checkWin_iff_hasRunThrough :
    ∀ (b : Board) (col row : Int) (p : Player), cellIs b col row p = true →
      (checkWin b col row p = true ↔ hasRunThrough b col row p) := by
  intro b col row p hcell
  unfold checkWin hasRunThrough
  rw [List.any_eq_true]
  constructor
  · rintro ⟨d, hd, hlc⟩
    simp only [decide_eq_true_eq] at hlc
    unfold lineCount at hlc
    set pos := countDir b p d.1 d.2 FUEL (col + d.1) (row + d.2) with hpos
    set neg := countDir b p (-d.1) (-d.2) FUEL (col - d.1) (row - d.2) with hneg
    refine ⟨d, hd, -(neg : Int), (pos : Int), by omega, by omega, by omega, ?_⟩
    intro k hk1 hk2
    rcases lt_trichotomy k 0 with hk | hk | hk
    · -- negative side: index -k-1 into the negative-direction count
      have hj : (-k - 1).toNat < neg := by omega
      have hmem := countDir_mem FUEL (col - d.1) (row - d.2) (-k - 1).toNat hj
      have hcast : ((-k - 1).toNat : Int) = -k - 1 := by omega
      rw [hcast] at hmem
      have heq1 : col - d.1 + (-k - 1) * -d.1 = col + k * d.1 := by ring
      have heq2 : row - d.2 + (-k - 1) * -d.2 = row + k * d.2 := by ring
      rw [heq1, heq2] at hmem
      exact hmem
    · subst hk
      simpa using hcell
    · -- positive side: index k-1 into the positive-direction count
      have hj : (k - 1).toNat < pos := by omega
      have hmem := countDir_mem FUEL (col + d.1) (row + d.2) (k - 1).toNat hj
      have hcast : ((k - 1).toNat : Int) = k - 1 := by omega
      rw [hcast] at hmem
      have heq1 : col + d.1 + (k - 1) * d.1 = col + k * d.1 := by ring
      have heq2 : row + d.2 + (k - 1) * d.2 = row + k * d.2 := by ring
      rw [heq1, heq2] at hmem
      exact hmem
  · rintro ⟨d, hd, a, bnd, ha, hbnd, hspan, hall⟩
    refine ⟨d, hd, ?_⟩
    simp only [decide_eq_true_eq]
    unfold lineCount
    -- the run stays in the grid, so its span in the scanned direction is ≤ 6
    have hcb := cellIs_bounds hcell
    have hbb := cellIs_bounds (hall bnd (by omega) (by omega))
    have hab := cellIs_bounds (hall a (by omega) (by omega))
    have hdir : d = ((1 : Int), (0 : Int)) ∨ d = ((0 : Int), (1 : Int)) ∨
        d = ((1 : Int), (1 : Int)) ∨ d = ((1 : Int), (-1 : Int)) := by
      simpa [directions] using hd
    have hb6 : bnd ≤ 6 ∧ -a ≤ 6 := by
      have hC : (COLS : Int) = 7 := by decide
      have hR : (ROWS : Int) = 6 := by decide
      rcases hdir with h | h | h | h <;> rw [h] at hbb hab <;>
        simp only [] at hbb hab <;> constructor <;> omega
    have hposge := @countDir_ge b p d.1 d.2 FUEL bnd.toNat (col + d.1) (row + d.2) ?_
    · have hnegge := @countDir_ge b p (-d.1) (-d.2) FUEL (-a).toNat (col - d.1) (row - d.2) ?_
      · have h1 : min FUEL bnd.toNat = bnd.toNat := by
          unfold FUEL
          omega
        have h2 : min FUEL (-a).toNat = (-a).toNat := by
          unfold FUEL
          omega
        rw [h1] at hposge
        rw [h2] at hnegge
        omega
      · intro k hk
        have := hall (-((k : Int) + 1)) (by omega) (by omega)
        have heq1 : col + -((k : Int) + 1) * d.1 = col - d.1 + (k : Int) * (-d.1) := by ring
        have heq2 : row + -((k : Int) + 1) * d.2 = row - d.2 + (k : Int) * (-d.2) := by ring
        rw [heq1, heq2] at this
        exact this
    · intro k hk
      have := hall ((k : Int) + 1) (by omega) (by omega)
      have heq1 : col + ((k : Int) + 1) * d.1 = col + d.1 + (k : Int) * d.1 := by ring
      have heq2 : row + ((k : Int) + 1) * d.2 = row + d.2 + (k : Int) * d.2 := by ring
      rw [heq1, heq2] at this
      exact this

/-- Witness for C5: on `bWin2Done` (four player-2 pieces across the bottom
row) the placed cell (3, 0) is player 2's, and the equivalence holds there. -/
theorem checkWin_iff_hasRunThrough_witness :
    checkWin bWin2Done 3 0 Player.two = true ↔ hasRunThrough bWin2Done 3 0 Player.two :=
  checkWin_iff_hasRunThrough bWin2Done 3 0 Player.two (by decide)


/-! ## C7: the evaluator equals the spec-side score -/

theorem filterMap_eq_map_of_some {α β : Type} (l : List α) (f : α → Option β) (g : α → β)
    (h : ∀ i ∈ l, f i = some (g i)) : l.filterMap f = l.map g := by
  induction l with
  | nil => simp
  | cons a t ih =>
    rw [List.filterMap_cons, h a (by simp), List.map_cons,
      ih fun i hi => h i (by simp [hi])]

theorem length_filterMap_lt {α β : Type} (l : List α) (f : α → Option β) (i₀ : α)
    (hmem : i₀ ∈ l) (hnone : f i₀ = none) : (l.filterMap f).length < l.length := by
  induction l with
  | nil => simp at hmem
  | cons a t ih =>
    rw [List.filterMap_cons]
    rcases List.mem_cons.mp hmem with h | h
    · subst h
      rw [hnone]
      exact Nat.lt_succ_of_le (List.length_filterMap_le f t)
    · cases hfa : f a
      · exact Nat.lt_succ_of_lt (ih h)
      · simpa using Nat.succ_lt_succ (ih h)

theorem collectWindow_of_inGrid {b : Board} {t : (Int × Int) × (Int × Int)}
    (h : inGridWindow t = true) :
    collectWindow b t.1.1 t.1.2 t.2.1 t.2.2 = windowCellsSpec b t := by
  unfold inGridWindow at h
  rw [List.all_eq_true] at h
  unfold collectWindow windowCellsSpec
  refine filterMap_eq_map_of_some _ _ _ fun i hi => ?_
  have hc := h i hi
  rw [decide_eq_true_eq] at hc
  simp only [if_pos hc]

theorem collectWindow_short {b : Board} {t : (Int × Int) × (Int × Int)}
    (h : inGridWindow t = false) :
    (collectWindow b t.1.1 t.1.2 t.2.1 t.2.2).length < 4 := by
  unfold inGridWindow at h
  rw [List.all_eq_false] at h
  obtain ⟨i₀, hmem, hfail⟩ := h
  rw [Bool.not_eq_true, decide_eq_false_iff_not] at hfail
  have := length_filterMap_lt ([0, 1, 2, 3] : List Int)
    (fun i =>
      if 0 ≤ t.1.1 + i * t.2.1 ∧ t.1.1 + i * t.2.1 < (COLS : Int) ∧
          0 ≤ t.1.2 + i * t.2.2 ∧ t.1.2 + i * t.2.2 < (ROWS : Int) then
        some (getCell b (t.1.1 + i * t.2.1) (t.1.2 + i * t.2.2))
      else none)
    i₀ hmem (by dsimp only; rw [if_neg hfail])
  simpa [collectWindow] using this

theorem window_pointwise (b : Board) (p : Player) (t : (Int × Int) × (Int × Int)) :
    (windowThree b p t : Int) * 50 + (windowTwo b p t : Int) * 10 =
      if inGridWindow t = true then windowScoreFor b p t else 0 := by
  cases hgrid : inGridWindow t
  · have hlen := @collectWindow_short b t hgrid
    simp only [windowThree, windowTwo]
    rw [if_neg (by omega : ¬((collectWindow b t.1.1 t.1.2 t.2.1 t.2.2).length = 4 ∧ _)),
      if_neg (by omega : ¬((collectWindow b t.1.1 t.1.2 t.2.1 t.2.2).length = 4 ∧ _))]
    simp
  · have hcells := @collectWindow_of_inGrid b t hgrid
    simp only [windowThree, windowTwo, windowScoreFor, hcells, if_pos rfl]
    have hlen : (windowCellsSpec b t).length = 4 := by
      unfold windowCellsSpec
      simp
    rw [hlen]
    set pc := countIn (windowCellsSpec b t) p.toCell with hpc
    set ec := countIn (windowCellsSpec b t) Cell.empty with hec
    by_cases h4 : pc + ec = 4
    · by_cases h22 : pc = 2 ∧ ec = 2
      · rw [if_neg (by omega : ¬(4 = 4 ∧ pc + ec = 4 ∧ pc = 3 ∧ ec = 1)),
          if_pos ⟨rfl, h4, h22⟩, if_pos h4, if_pos h22]
        norm_num
      · by_cases h31 : pc = 3 ∧ ec = 1
        · rw [if_pos ⟨rfl, h4, h31⟩, if_neg (by omega : ¬(4 = 4 ∧ pc + ec = 4 ∧ pc = 2 ∧ ec = 2)),
            if_pos h4, if_neg h22, if_pos h31]
          norm_num
        · rw [if_neg (by omega : ¬(4 = 4 ∧ pc + ec = 4 ∧ pc = 3 ∧ ec = 1)),
            if_neg (by omega : ¬(4 = 4 ∧ pc + ec = 4 ∧ pc = 2 ∧ ec = 2)),
            if_pos h4, if_neg h22, if_neg h31]
          norm_num
    · rw [if_neg (by omega : ¬(4 = 4 ∧ pc + ec = 4 ∧ pc = 3 ∧ ec = 1)),
        if_neg (by omega : ¬(4 = 4 ∧ pc + ec = 4 ∧ pc = 2 ∧ ec = 2)), if_neg h4]
      norm_num

theorem sum_linear {α : Type} (l : List α) (f g : α → Int) (cf cg : Int) :
    (l.map f).sum * cf + (l.map g).sum * cg = (l.map fun t => f t * cf + g t * cg).sum := by
  induction l with
  | nil => simp
  | cons a t ih =>
    simp only [List.map_cons, List.sum_cons]
    linarith

theorem sum_if_filter {α : Type} (l : List α) (pred : α → Bool) (g : α → Int) :
    (l.map fun t => if pred t = true then g t else 0).sum = ((l.filter pred).map g).sum := by
  induction l with
  | nil => simp
  | cons a t ih =>
    cases h : pred a <;> simp [List.filter_cons, h, ih]

theorem patterns_eq_specWindows (b : Board) (p : Player) :
    ((countPatterns b p).2 : Int) * 50 + ((countPatterns b p).1 : Int) * 10 =
      (specWindows.map (windowScoreFor b p)).sum := by
  unfold countPatterns specWindows
  simp only [Nat.cast_list_sum, List.map_map]
  rw [sum_linear]
  rw [show ((windowTriples.map fun t =>
      (Nat.cast ∘ windowThree b p) t * 50 + (Nat.cast ∘ windowTwo b p) t * 10 : List Int))
      = windowTriples.map fun t => if inGridWindow t = true then windowScoreFor b p t else 0
    from List.map_congr_left fun t _ => window_pointwise b p t]
  exact sum_if_filter _ _ _

theorem colScore_eq_counts (b : Board) (col : Fin COLS) (w : Int) :
    colScore b col w =
      w * (countCells b col Cell.p2 : Int) - w * (countCells b col Cell.p1 : Int) := by
  unfold colScore countCells
  induction List.finRange ROWS with
  | nil => simp
  | cons a t ih =>
    simp only [List.map_cons, List.sum_cons, List.filter_cons]
    cases h : b col a <;> simp [h, ih] <;> (try push_cast) <;> ring

set_option maxRecDepth 40000 in
/-- C7: the evaluator computes exactly the spec's weighted sum — positional
weights 3 and 2 around the center column plus `±10`/`±50` per unblocked
two/three pattern window — and the empty board scores 0. -/
theorem evaluateBoard_eq_evalSpec :
    (∀ b : Board, evaluateBoard b = evalSpec b) ∧ evaluateBoard createBoard = 0 := by
  constructor
  · intro b
    simp only [evaluateBoard, evalSpec]
    have h2 := patterns_eq_specWindows b Player.two
    have h1 := patterns_eq_specWindows b Player.one
    have hc3 := colScore_eq_counts b 3 3
    have hc2 := colScore_eq_counts b 2 2
    have hc4 := colScore_eq_counts b 4 2
    linarith
  · decide


/-! ## C8: the search never writes to the caller's board (heap model) -/

theorem FrameH_refl (st : HState) : FrameH st st :=
  ⟨le_refl _, fun _ _ => rfl⟩

theorem FrameH_trans {s1 s2 s3 : HState} (h12 : FrameH s1 s2) (h23 : FrameH s2 s3) :
    FrameH s1 s3 :=
  ⟨le_trans h12.1 h23.1, fun i hi => (h23.2 i (lt_of_lt_of_le hi h12.1)).trans (h12.2 i hi)⟩

theorem cloneColsH_length : ∀ (bh : BoardH) (st : HState),
    (cloneColsH bh st).1.length = bh.length := by
  intro bh
  induction bh with
  | nil => intro st; simp [cloneColsH]
  | cons cid rest ih => intro st; simp [cloneColsH, ih]

theorem cloneColsH_next : ∀ (bh : BoardH) (st : HState),
    st.next ≤ (cloneColsH bh st).2.next := by
  intro bh
  induction bh with
  | nil => intro st; simp [cloneColsH]
  | cons cid rest ih =>
    intro st
    simp only [cloneColsH]
    exact le_trans (by simp [allocCol]) (ih _)

theorem cloneColsH_frame : ∀ (bh : BoardH) (st : HState), FrameH st (cloneColsH bh st).2 := by
  intro bh
  induction bh with
  | nil => intro st; exact FrameH_refl st
  | cons cid rest ih =>
    intro st
    simp only [cloneColsH]
    refine FrameH_trans ?_ (ih _)
    refine ⟨by simp [allocCol], fun i hi => ?_⟩
    simp only [allocCol]
    rw [if_neg (by omega)]

theorem cloneColsH_fresh : ∀ (bh : BoardH) (st : HState) (cid' : Nat),
    cid' ∈ (cloneColsH bh st).1 → st.next ≤ cid' := by
  intro bh
  induction bh with
  | nil => intro st cid' h; simp [cloneColsH] at h
  | cons cid rest ih =>
    intro st cid' h
    simp only [cloneColsH, List.mem_cons] at h
    rcases h with h | h
    · simp [allocCol, h]
    · have := ih _ _ h
      simp only [allocCol] at this
      omega

theorem simulateMoveH_frame (st : HState) (bh : BoardH) (col : Fin COLS) (p : Player)
    (hlen : bh.length = COLS) :
    FrameH st (simulateMoveH st bh col p).2 ∧
      (simulateMoveH st bh col p).1.1.length = COLS := by
  have hclen : (cloneColsH bh st).1.length = COLS := by rw [cloneColsH_length, hlen]
  have hcf := cloneColsH_frame bh st
  have hmem : (cloneColsH bh st).1.getD col.val 0 ∈ (cloneColsH bh st).1 := by
    rw [List.getD_eq_getElem _ _ (by omega)]
    exact List.getElem_mem _
  have hfresh := cloneColsH_fresh bh st _ hmem
  unfold simulateMoveH
  simp only []
  cases hrow : getLowestEmptyRow (viewH (cloneColsH bh st).2 (cloneColsH bh st).1) col
  · exact ⟨hcf, hclen⟩
  · refine ⟨⟨?_, fun i hi => ?_⟩, hclen⟩
    · simpa [writeCellH] using hcf.1
    · simp only [writeCellH]
      rw [if_neg (by omega)]
      exact hcf.2 i hi

theorem wouldWinH_frame (st : HState) (bh : BoardH) (col : Fin COLS) (p : Player)
    (hlen : bh.length = COLS) : FrameH st (wouldWinH st bh col p).2 := by
  unfold wouldWinH
  cases hrow : getLowestEmptyRow (viewH st bh) col
  · exact FrameH_refl st
  · exact (simulateMoveH_frame st bh col p hlen).1

theorem abMaxLoopH_frame_of (n : Nat)
    (hP : ∀ (st : HState) (bh : BoardH) (alpha beta : XInt) (m : Bool),
      bh.length = COLS → FrameH st (minimaxABH st bh n alpha beta m).2) :
    ∀ (moves : List (Fin COLS)) (st : HState) (bh : BoardH) (alpha beta acc : XInt),
      bh.length = COLS → FrameH st (abMaxLoopH st bh n moves alpha beta acc).2 := by
  intro moves
  induction moves with
  | nil =>
    intro st bh alpha beta acc _
    rw [abMaxLoopH.eq_def]
    exact FrameH_refl st
  | cons col rest ih =>
    intro st bh alpha beta acc hlen
    rw [abMaxLoopH.eq_def]
    have hsm := simulateMoveH_frame st bh col Player.two hlen
    simp only []
    split
    · exact hsm.1
    · have hrec := hP (simulateMoveH st bh col Player.two).2
        (simulateMoveH st bh col Player.two).1.1 alpha beta false hsm.2
      split
      · exact FrameH_trans hsm.1 hrec
      · exact FrameH_trans (FrameH_trans hsm.1 hrec) (ih _ _ _ _ _ hlen)

theorem abMinLoopH_frame_of (n : Nat)
    (hP : ∀ (st : HState) (bh : BoardH) (alpha beta : XInt) (m : Bool),
      bh.length = COLS → FrameH st (minimaxABH st bh n alpha beta m).2) :
    ∀ (moves : List (Fin COLS)) (st : HState) (bh : BoardH) (alpha beta acc : XInt),
      bh.length = COLS → FrameH st (abMinLoopH st bh n moves alpha beta acc).2 := by
  intro moves
  induction moves with
  | nil =>
    intro st bh alpha beta acc _
    rw [abMinLoopH.eq_def]
    exact FrameH_refl st
  | cons col rest ih =>
    intro st bh alpha beta acc hlen
    rw [abMinLoopH.eq_def]
    have hsm := simulateMoveH_frame st bh col Player.one hlen
    simp only []
    split
    · exact hsm.1
    · have hrec := hP (simulateMoveH st bh col Player.one).2
        (simulateMoveH st bh col Player.one).1.1 alpha beta true hsm.2
      split
      · exact FrameH_trans hsm.1 hrec
      · exact FrameH_trans (FrameH_trans hsm.1 hrec) (ih _ _ _ _ _ hlen)

theorem minimaxABH_frame : ∀ (depth : Nat) (st : HState) (bh : BoardH)
    (alpha beta : XInt) (m : Bool), bh.length = COLS →
    FrameH st (minimaxABH st bh depth alpha beta m).2 := by
  intro depth
  induction depth with
  | zero =>
    intro st bh alpha beta m _
    rw [minimaxABH.eq_def]
    simp only []
    split <;> exact FrameH_refl st
  | succ n ih =>
    intro st bh alpha beta m hlen
    rw [minimaxABH.eq_def]
    simp only []
    split
    · exact FrameH_refl st
    · split
      · exact abMaxLoopH_frame_of n ih _ st bh alpha beta ⊥ hlen
      · exact abMinLoopH_frame_of n ih _ st bh alpha beta ⊤ hlen

theorem winScanH_frame (bh : BoardH) (p : Player) (hlen : bh.length = COLS) :
    ∀ (moves : List (Fin COLS)) (st : HState),
      FrameH st (winScanH bh p st moves).2 := by
  intro moves
  induction moves with
  | nil => intro st; exact FrameH_refl st
  | cons col rest ih =>
    intro st
    rw [winScanH]
    have hw := wouldWinH_frame st bh col p hlen
    split
    · exact hw
    · exact FrameH_trans hw (ih _)

theorem selectLoopH_frame (bh : BoardH) (hlen : bh.length = COLS) :
    ∀ (moves : List (Fin COLS)) (st : HState) (bestCol : Fin COLS) (bestScore : XInt),
      FrameH st (selectLoopH bh st moves bestCol bestScore).2 := by
  intro moves
  induction moves with
  | nil => intro st bestCol bestScore; exact FrameH_refl st
  | cons col rest ih =>
    intro st bestCol bestScore
    rw [selectLoopH]
    have hsm := simulateMoveH_frame st bh col Player.two hlen
    have hmm := minimaxABH_frame (SEARCH_DEPTH - 1)
      (simulateMoveH st bh col Player.two).2 (simulateMoveH st bh col Player.two).1.1
      ⊥ ⊤ false hsm.2
    split
    · exact FrameH_trans (FrameH_trans hsm.1 hmm) (ih _ _ _)
    · exact FrameH_trans (FrameH_trans hsm.1 hmm) (ih _ _ _)

theorem getCpuMoveH_frame (st : HState) (bh : BoardH) (hlen : bh.length = COLS) :
    FrameH st (getCpuMoveH st bh).2 := by
  unfold getCpuMoveH
  split
  · exact FrameH_refl st
  · simp only []
    have h1 := winScanH_frame bh Player.two hlen (getValidMoves (viewH st bh)) st
    split
    · exact h1
    · have h2 := winScanH_frame bh Player.one hlen (getValidMoves (viewH st bh))
        (winScanH bh Player.two st (getValidMoves (viewH st bh))).2
      split
      · exact FrameH_trans h1 h2
      · exact FrameH_trans (FrameH_trans h1 h2)
          (selectLoopH_frame bh hlen (getValidMoves (viewH st bh)) _ _ ⊥)

/-- C8: in the heap model, `getCpuMove` leaves every column of the caller's
board untouched: contents of the caller's (already-allocated) columns are
unchanged, so the board reads back exactly as before the call — all simulated
placements write only to freshly cloned columns. -/
theorem getCpuMoveH_preserves_board :
    ∀ (st : HState) (bh : BoardH), bh.length = COLS → (∀ cid ∈ bh, cid < st.next) →
      (∀ cid ∈ bh, (getCpuMoveH st bh).2.mem cid = st.mem cid) ∧
      (∀ (c : Fin COLS) (r : Fin ROWS),
        viewH (getCpuMoveH st bh).2 bh c r = viewH st bh c r) := by
  intro st bh hlen hcids
  have hf := getCpuMoveH_frame st bh hlen
  have hmem : ∀ cid ∈ bh, (getCpuMoveH st bh).2.mem cid = st.mem cid :=
    fun cid hc => hf.2 cid (hcids cid hc)
  refine ⟨hmem, fun c r => ?_⟩
  unfold viewH
  rw [hmem (bh.getD c.val 0) ?_]
  rw [List.getD_eq_getElem _ _ (by omega)]
  exact List.getElem_mem _

/-- Witness for C8: a fresh 7-column store with the empty board; all its
column identifiers are allocated, and the move computation leaves the board's
view unchanged. -/
theorem getCpuMoveH_preserves_board_witness :
    (∀ cid ∈ bhInit, (getCpuMoveH stInit bhInit).2.mem cid = stInit.mem cid) ∧
    (∀ (c : Fin COLS) (r : Fin ROWS),
      viewH (getCpuMoveH stInit bhInit).2 bhInit c r = viewH stInit bhInit c r) :=
  getCpuMoveH_preserves_board stInit bhInit (by decide) (by decide)


/-! ## C1: alpha-beta equals plain minimax — score-order helpers and bounds -/

theorem toX_le_toX {a b : Int} : toX a ≤ toX b ↔ a ≤ b := by
  simp [toX]

theorem toX_lt_toX {a b : Int} : toX a < toX b ↔ a < b := by
  simp [toX]

theorem bot_lt_toX (a : Int) : (⊥ : XInt) < toX a := WithBot.bot_lt_coe _

theorem toX_lt_top (a : Int) : toX a < (⊤ : XInt) := by
  rw [← WithBot.coe_top]
  exact WithBot.coe_lt_coe.mpr (WithTop.coe_lt_top _)

theorem bot_lt_top_xint : (⊥ : XInt) < (⊤ : XInt) :=
  lt_trans (bot_lt_toX 0) (toX_lt_top 0)

/-- Every node value of either search at depth 0 is `0` or the heuristic
evaluation, hence within the `WIN_SCORE` bounds. -/
theorem minimax_zero_bounds (b : Board) (alpha beta : XInt) (m : Bool) :
    (minimaxAB b 0 alpha beta m ≤ toX WIN_SCORE ∧ toX LOSE_SCORE ≤ minimaxAB b 0 alpha beta m) ∧
    (minimaxP b 0 m ≤ toX WIN_SCORE ∧ toX LOSE_SCORE ≤ minimaxP b 0 m) := by
  have hev := (evaluateBoard_abs_lt_win b).1
  rw [abs_lt] at hev
  unfold WIN_SCORE at hev
  have h0a : toX 0 ≤ toX WIN_SCORE := toX_le_toX.mpr (by unfold WIN_SCORE; omega)
  have h0b : toX LOSE_SCORE ≤ toX 0 := toX_le_toX.mpr (by unfold LOSE_SCORE; omega)
  have hea : toX (evaluateBoard b) ≤ toX WIN_SCORE := toX_le_toX.mpr (by unfold WIN_SCORE; omega)
  have heb : toX LOSE_SCORE ≤ toX (evaluateBoard b) := toX_le_toX.mpr (by unfold LOSE_SCORE; omega)
  constructor
  · rw [minimaxAB.eq_def]
    simp only []
    split
    · exact ⟨h0a, h0b⟩
    · exact ⟨hea, heb⟩
  · rw [minimaxP.eq_def]
    simp only []
    split
    · exact ⟨h0a, h0b⟩
    · exact ⟨hea, heb⟩

/-- Upper bound is preserved along the maximizing alpha-beta loop. -/
theorem abMaxLoop_ub (n : Nat) (b : Board) (beta : XInt)
    (hch : ∀ (b' : Board) (a' b'' : XInt), minimaxAB b' n a' b'' false ≤ toX (WIN_SCORE + n)) :
    ∀ (moves : List (Fin COLS)) (alpha acc : XInt),
      acc ≤ toX (WIN_SCORE + (n + 1 : Nat)) →
      abMaxLoop b n moves alpha beta acc ≤ toX (WIN_SCORE + (n + 1 : Nat)) := by
  intro moves
  induction moves with
  | nil =>
    intro alpha acc hacc
    rw [abMaxLoop.eq_def]
    exact hacc
  | cons col rest ih =>
    intro alpha acc hacc
    rw [abMaxLoop.eq_def]
    simp only []
    split
    · exact le_refl _
    · have hs : minimaxAB (simulateMove b col Player.two).1 n alpha beta false ≤
          toX (WIN_SCORE + (n + 1 : Nat)) :=
        le_trans (hch _ _ _) (toX_le_toX.mpr (by push_cast; omega))
      split
      · exact max_le hacc hs
      · exact ih _ _ (max_le hacc hs)

/-- Lower bound is preserved along the maximizing alpha-beta loop. -/
theorem abMaxLoop_lb_pres (n : Nat) (b : Board) (beta : XInt) :
    ∀ (moves : List (Fin COLS)) (alpha acc : XInt),
      toX (LOSE_SCORE - (n + 1 : Nat)) ≤ acc →
      toX (LOSE_SCORE - (n + 1 : Nat)) ≤ abMaxLoop b n moves alpha beta acc := by
  intro moves
  induction moves with
  | nil =>
    intro alpha acc hacc
    rw [abMaxLoop.eq_def]
    exact hacc
  | cons col rest ih =>
    intro alpha acc hacc
    rw [abMaxLoop.eq_def]
    simp only []
    split
    · exact toX_le_toX.mpr (by unfold WIN_SCORE LOSE_SCORE; push_cast; omega)
    · split
      · exact le_trans hacc (le_max_left _ _)
      · exact ih _ _ (le_trans hacc (le_max_left _ _))

/-- Lower bound is preserved along the minimizing alpha-beta loop. -/
theorem abMinLoop_lb (n : Nat) (b : Board) (alpha : XInt)
    (hch : ∀ (b' : Board) (a' b'' : XInt), toX (LOSE_SCORE - n) ≤ minimaxAB b' n a' b'' true) :
    ∀ (moves : List (Fin COLS)) (beta acc : XInt),
      toX (LOSE_SCORE - (n + 1 : Nat)) ≤ acc →
      toX (LOSE_SCORE - (n + 1 : Nat)) ≤ abMinLoop b n moves alpha beta acc := by
  intro moves
  induction moves with
  | nil =>
    intro beta acc hacc
    rw [abMinLoop.eq_def]
    exact hacc
  | cons col rest ih =>
    intro beta acc hacc
    rw [abMinLoop.eq_def]
    simp only []
    split
    · exact le_refl _
    · have hs : toX (LOSE_SCORE - (n + 1 : Nat)) ≤
          minimaxAB (simulateMove b col Player.one).1 n alpha beta true :=
        le_trans (toX_le_toX.mpr (by push_cast; omega)) (hch _ _ _)
      split
      · exact le_min hacc hs
      · exact ih _ _ (le_min hacc hs)

/-- Upper bound is preserved along the minimizing alpha-beta loop. -/
theorem abMinLoop_ub_pres (n : Nat) (b : Board) (alpha : XInt) :
    ∀ (moves : List (Fin COLS)) (beta acc : XInt),
      acc ≤ toX (WIN_SCORE + (n + 1 : Nat)) →
      abMinLoop b n moves alpha beta acc ≤ toX (WIN_SCORE + (n + 1 : Nat)) := by
  intro moves
  induction moves with
  | nil =>
    intro beta acc hacc
    rw [abMinLoop.eq_def]
    exact hacc
  | cons col rest ih =>
    intro beta acc hacc
    rw [abMinLoop.eq_def]
    simp only []
    split
    · exact toX_le_toX.mpr (by unfold WIN_SCORE LOSE_SCORE; push_cast; omega)
    · split
      · exact le_trans (min_le_left _ _) hacc
      · exact ih _ _ (le_trans (min_le_left _ _) hacc)

/-- Upper bound is preserved along the maximizing plain loop. -/
theorem pMaxLoop_ub (n : Nat) (b : Board)
    (hch : ∀ b' : Board, minimaxP b' n false ≤ toX (WIN_SCORE + n)) :
    ∀ (moves : List (Fin COLS)) (acc : XInt),
      acc ≤ toX (WIN_SCORE + (n + 1 : Nat)) →
      pMaxLoop b n moves acc ≤ toX (WIN_SCORE + (n + 1 : Nat)) := by
  intro moves
  induction moves with
  | nil =>
    intro acc hacc
    rw [pMaxLoop.eq_def]
    exact hacc
  | cons col rest ih =>
    intro acc hacc
    rw [pMaxLoop.eq_def]
    simp only []
    split
    · exact le_refl _
    · exact ih _ (max_le hacc
        (le_trans (hch _) (toX_le_toX.mpr (by push_cast; omega))))

/-- Lower bound is preserved along the maximizing plain loop. -/
theorem pMaxLoop_lb_pres (n : Nat) (b : Board) :
    ∀ (moves : List (Fin COLS)) (acc : XInt),
      toX (LOSE_SCORE - (n + 1 : Nat)) ≤ acc →
      toX (LOSE_SCORE - (n + 1 : Nat)) ≤ pMaxLoop b n moves acc := by
  intro moves
  induction moves with
  | nil =>
    intro acc hacc
    rw [pMaxLoop.eq_def]
    exact hacc
  | cons col rest ih =>
    intro acc hacc
    rw [pMaxLoop.eq_def]
    simp only []
    split
    · exact toX_le_toX.mpr (by unfold WIN_SCORE LOSE_SCORE; push_cast; omega)
    · exact ih _ (le_trans hacc (le_max_left _ _))

/-- Lower bound is preserved along the minimizing plain loop. -/
theorem pMinLoop_lb (n : Nat) (b : Board)
    (hch : ∀ b' : Board, toX (LOSE_SCORE - n) ≤ minimaxP b' n true) :
    ∀ (moves : List (Fin COLS)) (acc : XInt),
      toX (LOSE_SCORE - (n + 1 : Nat)) ≤ acc →
      toX (LOSE_SCORE - (n + 1 : Nat)) ≤ pMinLoop b n moves acc := by
  intro moves
  induction moves with
  | nil =>
    intro acc hacc
    rw [pMinLoop.eq_def]
    exact hacc
  | cons col rest ih =>
    intro acc hacc
    rw [pMinLoop.eq_def]
    simp only []
    split
    · exact le_refl _
    · exact ih _ (le_min hacc
        (le_trans (toX_le_toX.mpr (by push_cast; omega)) (hch _)))

/-- Upper bound is preserved along the minimizing plain loop. -/
theorem pMinLoop_ub_pres (n : Nat) (b : Board) :
    ∀ (moves : List (Fin COLS)) (acc : XInt),
      acc ≤ toX (WIN_SCORE + (n + 1 : Nat)) →
      pMinLoop b n moves acc ≤ toX (WIN_SCORE + (n + 1 : Nat)) := by
  intro moves
  induction moves with
  | nil =>
    intro acc hacc
    rw [pMinLoop.eq_def]
    exact hacc
  | cons col rest ih =>
    intro acc hacc
    rw [pMinLoop.eq_def]
    simp only []
    split
    · exact toX_le_toX.mpr (by unfold WIN_SCORE LOSE_SCORE; push_cast; omega)
    · exact ih _ (le_trans (min_le_left _ _) hacc)


/-- Numeric facts about the depth-biased scores. -/
theorem score_order (n : Nat) :
    toX (LOSE_SCORE - (n + 1 : Nat)) ≤ toX (WIN_SCORE + (n + 1 : Nat)) ∧
    toX (LOSE_SCORE - (n + 1 : Nat)) ≤ toX 0 ∧ toX 0 ≤ toX (WIN_SCORE + (n + 1 : Nat)) ∧
    toX (LOSE_SCORE - (n + 1 : Nat)) ≤ toX (LOSE_SCORE - n) ∧
    toX (WIN_SCORE + n) ≤ toX (WIN_SCORE + (n + 1 : Nat)) := by
  refine ⟨?_, ?_, ?_, ?_, ?_⟩ <;>
    exact toX_le_toX.mpr (by simp only [WIN_SCORE, LOSE_SCORE]; push_cast; omega)

/-- Both searches return values within the depth-biased win/loss bounds. -/
theorem minimax_bounds : ∀ d : Nat,
    (∀ (b : Board) (alpha beta : XInt) (m : Bool),
      minimaxAB b d alpha beta m ≤ toX (WIN_SCORE + d) ∧
      toX (LOSE_SCORE - d) ≤ minimaxAB b d alpha beta m) ∧
    (∀ (b : Board) (m : Bool),
      minimaxP b d m ≤ toX (WIN_SCORE + d) ∧ toX (LOSE_SCORE - d) ≤ minimaxP b d m) := by
  intro d
  induction d with
  | zero =>
    simp only [Nat.cast_zero, add_zero, sub_zero]
    exact ⟨fun b alpha beta m => (minimax_zero_bounds b alpha beta m).1,
      fun b m => (minimax_zero_bounds b ⊥ ⊤ m).2⟩
  | succ n ih =>
    have hOrd := score_order n
    constructor
    · intro b alpha beta m
      rw [minimaxAB.eq_def]
      simp only []
      split
      · exact ⟨hOrd.2.2.1, hOrd.2.1⟩
      · next hne =>
        split
        · -- maximizing loop
          constructor
          · exact abMaxLoop_ub n b beta (fun b' a' b'' => (ih.1 b' a' b'' false).1) _ _ ⊥ bot_le
          · obtain ⟨col, rest, hm⟩ := List.exists_cons_of_ne_nil hne
            rw [hm, abMaxLoop.eq_def]
            simp only []
            split
            · exact hOrd.1
            · have hs := le_trans hOrd.2.2.2.1
                (ih.1 (simulateMove b col Player.two).1 alpha beta false).2
              split
              · exact le_trans hs (le_max_right _ _)
              · exact abMaxLoop_lb_pres n b beta rest _ _ (le_trans hs (le_max_right _ _))
        · -- minimizing loop
          constructor
          · obtain ⟨col, rest, hm⟩ := List.exists_cons_of_ne_nil hne
            rw [hm, abMinLoop.eq_def]
            simp only []
            split
            · exact hOrd.1
            · have hs := le_trans
                (ih.1 (simulateMove b col Player.one).1 alpha beta true).1 hOrd.2.2.2.2
              split
              · exact le_trans (min_le_right _ _) hs
              · exact abMinLoop_ub_pres n b alpha rest _ _ (le_trans (min_le_right _ _) hs)
          · exact abMinLoop_lb n b alpha (fun b' a' b'' => (ih.1 b' a' b'' true).2) _ _ ⊤ le_top
    · intro b m
      rw [minimaxP.eq_def]
      simp only []
      split
      · exact ⟨hOrd.2.2.1, hOrd.2.1⟩
      · next hne =>
        split
        · constructor
          · exact pMaxLoop_ub n b (fun b' => (ih.2 b' false).1) _ ⊥ bot_le
          · obtain ⟨col, rest, hm⟩ := List.exists_cons_of_ne_nil hne
            rw [hm, pMaxLoop.eq_def]
            simp only []
            split
            · exact hOrd.1
            · have hs := le_trans hOrd.2.2.2.1 (ih.2 (simulateMove b col Player.two).1 false).2
              exact pMaxLoop_lb_pres n b rest _ (le_trans hs (le_max_right _ _))
        · constructor
          · obtain ⟨col, rest, hm⟩ := List.exists_cons_of_ne_nil hne
            rw [hm, pMinLoop.eq_def]
            simp only []
            split
            · exact hOrd.1
            · have hs := le_trans (ih.2 (simulateMove b col Player.one).1 true).1 hOrd.2.2.2.2
              exact pMinLoop_ub_pres n b rest _ (le_trans (min_le_right _ _) hs)
          · exact pMinLoop_lb n b (fun b' => (ih.2 b' true).2) _ ⊤ le_top


/-- The maximizing alpha-beta loop never drops below its accumulator. -/
theorem abMaxLoop_ge_acc (n : Nat) (b : Board) (beta : XInt) :
    ∀ (moves : List (Fin COLS)) (alpha acc : XInt),
      acc ≤ toX (WIN_SCORE + (n + 1 : Nat)) → acc ≤ abMaxLoop b n moves alpha beta acc := by
  intro moves
  induction moves with
  | nil =>
    intro alpha acc _
    rw [abMaxLoop.eq_def]
  | cons col rest ih =>
    intro alpha acc hacc
    rw [abMaxLoop.eq_def]
    simp only []
    split
    · exact hacc
    · have hs : minimaxAB (simulateMove b col Player.two).1 n alpha beta false ≤
          toX (WIN_SCORE + (n + 1 : Nat)) :=
        le_trans ((minimax_bounds n).1 _ alpha beta false).1 (score_order n).2.2.2.2
      split
      · exact le_max_left _ _
      · exact le_trans (le_max_left _ _) (ih _ _ (max_le hacc hs))

/-- The maximizing plain loop never drops below its accumulator. -/
theorem pMaxLoop_ge_acc (n : Nat) (b : Board) :
    ∀ (moves : List (Fin COLS)) (acc : XInt),
      acc ≤ toX (WIN_SCORE + (n + 1 : Nat)) → acc ≤ pMaxLoop b n moves acc := by
  intro moves
  induction moves with
  | nil =>
    intro acc _
    rw [pMaxLoop.eq_def]
  | cons col rest ih =>
    intro acc hacc
    rw [pMaxLoop.eq_def]
    simp only []
    split
    · exact hacc
    · have hs : minimaxP (simulateMove b col Player.two).1 n false ≤
          toX (WIN_SCORE + (n + 1 : Nat)) :=
        le_trans ((minimax_bounds n).2 _ false).1 (score_order n).2.2.2.2
      exact le_trans (le_max_left _ _) (ih _ (max_le hacc hs))

/-- The minimizing alpha-beta loop never rises above its accumulator. -/
theorem abMinLoop_le_acc (n : Nat) (b : Board) (alpha : XInt) :
    ∀ (moves : List (Fin COLS)) (beta acc : XInt),
      toX (LOSE_SCORE - (n + 1 : Nat)) ≤ acc → abMinLoop b n moves alpha beta acc ≤ acc := by
  intro moves
  induction moves with
  | nil =>
    intro beta acc _
    rw [abMinLoop.eq_def]
  | cons col rest ih =>
    intro beta acc hacc
    rw [abMinLoop.eq_def]
    simp only []
    split
    · exact hacc
    · have hs : toX (LOSE_SCORE - (n + 1 : Nat)) ≤
          minimaxAB (simulateMove b col Player.one).1 n alpha beta true :=
        le_trans (score_order n).2.2.2.1 ((minimax_bounds n).1 _ alpha beta true).2
      split
      · exact min_le_left _ _
      · exact le_trans (ih _ _ (le_min hacc hs)) (min_le_left _ _)

/-- The minimizing plain loop never rises above its accumulator. -/
theorem pMinLoop_le_acc (n : Nat) (b : Board) :
    ∀ (moves : List (Fin COLS)) (acc : XInt),
      toX (LOSE_SCORE - (n + 1 : Nat)) ≤ acc → pMinLoop b n moves acc ≤ acc := by
  intro moves
  induction moves with
  | nil =>
    intro acc _
    rw [pMinLoop.eq_def]
  | cons col rest ih =>
    intro acc hacc
    rw [pMinLoop.eq_def]
    simp only []
    split
    · exact hacc
    · have hs : toX (LOSE_SCORE - (n + 1 : Nat)) ≤
          minimaxP (simulateMove b col Player.one).1 n true :=
        le_trans (score_order n).2.2.2.1 ((minimax_bounds n).2 _ true).2
      exact le_trans (ih _ (le_min hacc hs)) (min_le_left _ _)


/-- Fail-soft relation of the maximizing alpha-beta loop against the plain
maximizing loop, assuming the fail-soft relation for the child searches. -/
theorem abMaxLoopFS (n : Nat) (b : Board) (beta : XInt)
    (hIH : ∀ (b' : Board) (a' b'' : XInt), a' < b'' →
      (minimaxAB b' n a' b'' false ≤ a' → minimaxP b' n false ≤ minimaxAB b' n a' b'' false) ∧
      (b'' ≤ minimaxAB b' n a' b'' false → minimaxAB b' n a' b'' false ≤ minimaxP b' n false) ∧
      (a' < minimaxAB b' n a' b'' false → minimaxAB b' n a' b'' false < b'' →
        minimaxAB b' n a' b'' false = minimaxP b' n false)) :
    ∀ (moves : List (Fin COLS)) (alpha af ag : XInt), alpha < beta → af ≤ alpha → ag ≤ af →
      (abMaxLoop b n moves alpha beta af ≤ alpha →
        pMaxLoop b n moves ag ≤ abMaxLoop b n moves alpha beta af) ∧
      (beta ≤ abMaxLoop b n moves alpha beta af →
        abMaxLoop b n moves alpha beta af ≤ pMaxLoop b n moves ag) ∧
      (alpha < abMaxLoop b n moves alpha beta af → abMaxLoop b n moves alpha beta af < beta →
        abMaxLoop b n moves alpha beta af = pMaxLoop b n moves ag) := by
  intro moves
  induction moves with
  | nil =>
    intro alpha af ag hab haf hag
    rw [abMaxLoop.eq_def, pMaxLoop.eq_def]
    refine ⟨fun _ => hag, fun h2 => ?_, fun h3 _ => ?_⟩
    · exact absurd (lt_of_le_of_lt (h2.trans haf) hab) (lt_irrefl beta)
    · exact absurd (lt_of_lt_of_le h3 haf) (lt_irrefl alpha)
  | cons col rest ih =>
    intro alpha af ag hab haf hag
    rw [abMaxLoop.eq_def, pMaxLoop.eq_def]
    simp only []
    by_cases hwin : checkWin (simulateMove b col Player.two).1 (col : Int)
        (rowInt (simulateMove b col Player.two).2) Player.two = true
    · simp [hwin]
    · simp only [if_neg hwin]
      set s := minimaxAB (simulateMove b col Player.two).1 n alpha beta false with hs_def
      set v := minimaxP (simulateMove b col Player.two).1 n false with hv_def
      by_cases hbr : beta ≤ max alpha s
      · rw [if_pos hbr]
        have hsb : beta ≤ s := by
          rcases le_or_lt s alpha with h | h
          · rw [max_eq_left h] at hbr
            exact absurd (lt_of_le_of_lt hbr hab) (lt_irrefl beta)
          · rwa [max_eq_right (le_of_lt h)] at hbr
        have hsv : s ≤ v := (hIH _ _ _ hab).2.1 hsb
        have has : alpha < s := lt_of_lt_of_le hab hsb
        have hfs : max af s = s := max_eq_right (le_of_lt (lt_of_le_of_lt haf has))
        have hgv : max ag v = v :=
          max_eq_right (le_trans (hag.trans haf) (le_of_lt (lt_of_lt_of_le has hsv)))
        rw [hfs, hgv]
        have hvW : v ≤ toX (WIN_SCORE + (n + 1 : Nat)) :=
          le_trans ((minimax_bounds n).2 _ false).1 (score_order n).2.2.2.2
        have hgge : v ≤ pMaxLoop b n rest v := pMaxLoop_ge_acc n b rest v hvW
        refine ⟨fun h1 => ?_, fun _ => le_trans hsv hgge, fun _ h3 => ?_⟩
        · exact absurd (lt_of_lt_of_le has h1) (lt_irrefl alpha)
        · exact absurd (lt_of_le_of_lt hsb h3) (lt_irrefl beta)
      · rw [if_neg hbr]
        have hmax : max alpha s < beta := not_le.mp hbr
        by_cases hsa : s ≤ alpha
        · have hvs : v ≤ s := (hIH _ _ _ hab).1 hsa
          rw [max_eq_left hsa]
          exact ih alpha (max af s) (max ag v) hab (max_le haf hsa) (max_le_max hag hvs)
        · have has : alpha < s := not_le.mp hsa
          have hsb : s < beta := lt_of_le_of_lt (le_max_right alpha s) hmax
          have hsv : s = v := (hIH _ _ _ hab).2.2 has hsb
          have ha' : max alpha s = s := max_eq_right (le_of_lt has)
          have haf' : max af s = s := max_eq_right (haf.trans (le_of_lt has))
          have hag' : max ag v = s := by
            rw [← hsv]
            exact max_eq_right ((hag.trans haf).trans (le_of_lt has))
          rw [ha', haf', hag']
          have h3 := ih s s s hsb (le_refl s) (le_refl s)
          have hsW : s ≤ toX (WIN_SCORE + (n + 1 : Nat)) :=
            le_trans ((minimax_bounds n).1 _ alpha beta false).1 (score_order n).2.2.2.2
          have hfge : s ≤ abMaxLoop b n rest s beta s := abMaxLoop_ge_acc n b beta rest s s hsW
          have hgge : s ≤ pMaxLoop b n rest s := pMaxLoop_ge_acc n b rest s hsW
          refine ⟨fun h1 => ?_, fun h2 => h3.2.1 h2, fun ha2 hb2 => ?_⟩
          · exact absurd (le_trans hfge h1) (not_le.mpr has)
          · rcases le_or_lt (abMaxLoop b n rest s beta s) s with hle | hgt
            · have hfs2 : abMaxLoop b n rest s beta s = s := le_antisymm hle hfge
              have hgf : pMaxLoop b n rest s ≤ abMaxLoop b n rest s beta s :=
                h3.1 (le_of_eq hfs2)
              refine le_antisymm ?_ hgf
              rw [hfs2]
              exact hgge
            · exact h3.2.2 hgt hb2

/-- Fail-soft relation of the minimizing alpha-beta loop against the plain
minimizing loop, assuming the fail-soft relation for the child searches. -/
theorem abMinLoopFS (n : Nat) (b : Board) (alpha : XInt)
    (hIH : ∀ (b' : Board) (a' b'' : XInt), a' < b'' →
      (minimaxAB b' n a' b'' true ≤ a' → minimaxP b' n true ≤ minimaxAB b' n a' b'' true) ∧
      (b'' ≤ minimaxAB b' n a' b'' true → minimaxAB b' n a' b'' true ≤ minimaxP b' n true) ∧
      (a' < minimaxAB b' n a' b'' true → minimaxAB b' n a' b'' true < b'' →
        minimaxAB b' n a' b'' true = minimaxP b' n true)) :
    ∀ (moves : List (Fin COLS)) (beta af ag : XInt), alpha < beta → beta ≤ af → af ≤ ag →
      (abMinLoop b n moves alpha beta af ≤ alpha →
        pMinLoop b n moves ag ≤ abMinLoop b n moves alpha beta af) ∧
      (beta ≤ abMinLoop b n moves alpha beta af →
        abMinLoop b n moves alpha beta af ≤ pMinLoop b n moves ag) ∧
      (alpha < abMinLoop b n moves alpha beta af → abMinLoop b n moves alpha beta af < beta →
        abMinLoop b n moves alpha beta af = pMinLoop b n moves ag) := by
  intro moves
  induction moves with
  | nil =>
    intro beta af ag hab hbf hfg
    rw [abMinLoop.eq_def, pMinLoop.eq_def]
    refine ⟨fun h1 => ?_, fun _ => hfg, fun _ h3 => ?_⟩
    · exact absurd (lt_of_lt_of_le hab (hbf.trans h1)) (lt_irrefl alpha)
    · exact absurd (lt_of_le_of_lt hbf h3) (lt_irrefl beta)
  | cons col rest ih =>
    intro beta af ag hab hbf hfg
    rw [abMinLoop.eq_def, pMinLoop.eq_def]
    simp only []
    by_cases hwin : checkWin (simulateMove b col Player.one).1 (col : Int)
        (rowInt (simulateMove b col Player.one).2) Player.one = true
    · simp [hwin]
    · simp only [if_neg hwin]
      set s := minimaxAB (simulateMove b col Player.one).1 n alpha beta true with hs_def
      set v := minimaxP (simulateMove b col Player.one).1 n true with hv_def
      by_cases hbr : min beta s ≤ alpha
      · rw [if_pos hbr]
        have hsa : s ≤ alpha := by
          rcases le_or_lt beta s with h | h
          · rw [min_eq_left h] at hbr
            exact absurd (lt_of_lt_of_le hab hbr) (lt_irrefl alpha)
          · rwa [min_eq_right (le_of_lt h)] at hbr
        have hvs : v ≤ s := (hIH _ _ _ hab).1 hsa
        have hsb : s < beta := lt_of_le_of_lt hsa hab
        have hfs : min af s = s := min_eq_right (le_of_lt (lt_of_lt_of_le hsb hbf))
        have hgv : min ag v = v :=
          min_eq_right (le_trans (le_of_lt (lt_of_le_of_lt hvs (lt_of_lt_of_le hsb hbf)))
            hfg)
        rw [hfs, hgv]
        have hvL : toX (LOSE_SCORE - (n + 1 : Nat)) ≤ v :=
          le_trans (score_order n).2.2.2.1 ((minimax_bounds n).2 _ true).2
        have hgle : pMinLoop b n rest v ≤ v := pMinLoop_le_acc n b rest v hvL
        refine ⟨fun _ => le_trans hgle hvs, fun h2 => ?_, fun h3 _ => ?_⟩
        · exact absurd (lt_of_le_of_lt (h2.trans hsa) hab) (lt_irrefl beta)
        · exact absurd (lt_of_lt_of_le h3 hsa) (lt_irrefl alpha)
      · rw [if_neg hbr]
        have hmax : alpha < min beta s := not_le.mp hbr
        by_cases hbs : beta ≤ s
        · have hsv : s ≤ v := (hIH _ _ _ hab).2.1 hbs
          rw [min_eq_left hbs]
          exact ih beta (min af s) (min ag v) hab (le_min hbf hbs) (min_le_min hfg hsv)
        · have hsb : s < beta := not_le.mp hbs
          have has : alpha < s := lt_of_lt_of_le hmax (min_le_right beta s)
          have hsv : s = v := (hIH _ _ _ hab).2.2 has hsb
          have hb' : min beta s = s := min_eq_right (le_of_lt hsb)
          have haf' : min af s = s := min_eq_right ((le_of_lt hsb).trans hbf)
          have hag' : min ag v = s := by
            rw [← hsv]
            exact min_eq_right (((le_of_lt hsb).trans hbf).trans hfg)
          rw [hb', haf', hag']
          have h3 := ih s s s has (le_refl s) (le_refl s)
          have hsL : toX (LOSE_SCORE - (n + 1 : Nat)) ≤ s :=
            le_trans (score_order n).2.2.2.1 ((minimax_bounds n).1 _ alpha beta true).2
          have hfle : abMinLoop b n rest alpha s s ≤ s := abMinLoop_le_acc n b alpha rest s s hsL
          have hgle : pMinLoop b n rest s ≤ s := pMinLoop_le_acc n b rest s hsL
          refine ⟨fun h1 => h3.1 h1, fun h2 => ?_, fun ha2 hb2 => ?_⟩
          · exact absurd (lt_of_le_of_lt (h2.trans hfle) hsb) (lt_irrefl beta)
          · rcases lt_or_le (abMinLoop b n rest alpha s s) s with hlt | hge
            · exact h3.2.2 ha2 hlt
            · have hfs2 : abMinLoop b n rest alpha s s = s := le_antisymm hfle hge
              have hfg2 : abMinLoop b n rest alpha s s ≤ pMinLoop b n rest s :=
                h3.2.1 (le_of_eq hfs2.symm)
              refine le_antisymm hfg2 ?_
              rw [hfs2]
              exact hgle


/-- Fail-soft correctness of alpha-beta against plain minimax: a result within
the window is exact; a result at or below alpha is an upper bound on the plain
value; a result at or above beta is a lower bound. -/
theorem failSoft : ∀ (d : Nat) (b : Board) (alpha beta : XInt) (m : Bool), alpha < beta →
    (minimaxAB b d alpha beta m ≤ alpha → minimaxP b d m ≤ minimaxAB b d alpha beta m) ∧
    (beta ≤ minimaxAB b d alpha beta m → minimaxAB b d alpha beta m ≤ minimaxP b d m) ∧
    (alpha < minimaxAB b d alpha beta m → minimaxAB b d alpha beta m < beta →
      minimaxAB b d alpha beta m = minimaxP b d m) := by
  intro d
  induction d with
  | zero =>
    intro b alpha beta m _
    have hEq : minimaxAB b 0 alpha beta m = minimaxP b 0 m := by
      rw [minimaxAB.eq_def, minimaxP.eq_def]
    rw [hEq]
    exact ⟨fun _ => le_refl _, fun _ => le_refl _, fun _ _ => rfl⟩
  | succ n ih =>
    intro b alpha beta m hab
    rw [minimaxAB.eq_def, minimaxP.eq_def]
    simp only []
    by_cases hv : getValidMoves b = []
    · simp [hv]
    · simp only [if_neg hv]
      cases m
      · rw [if_neg (show ¬(false = true) by simp), if_neg (show ¬(false = true) by simp)]
        exact abMinLoopFS n b alpha (fun b' a' b'' h => ih b' a' b'' true h)
          (getValidMoves b) beta ⊤ ⊤ hab le_top (le_refl ⊤)
      · rw [if_pos rfl, if_pos rfl]
        exact abMaxLoopFS n b beta (fun b' a' b'' h => ih b' a' b'' false h)
          (getValidMoves b) alpha ⊥ ⊥ hab bot_le (le_refl ⊥)

/-- With the unrestricted window the alpha-beta search equals plain minimax
at every board, depth and turn. -/
theorem alphabeta_eq_plain : ∀ (d : Nat) (b : Board) (m : Bool),
    minimaxAB b d ⊥ ⊤ m = minimaxP b d m := by
  intro d b m
  have h := failSoft d b ⊥ ⊤ m bot_lt_top_xint
  by_cases h1 : minimaxAB b d ⊥ ⊤ m ≤ ⊥
  · have hv := h.1 h1
    rw [le_bot_iff] at h1
    rw [h1] at hv ⊢
    rw [le_bot_iff] at hv
    exact hv.symm
  · by_cases h2 : (⊤ : XInt) ≤ minimaxAB b d ⊥ ⊤ m
    · have hv := h.2.1 h2
      rw [top_le_iff] at h2
      rw [h2] at hv ⊢
      rw [top_le_iff] at hv
      exact hv.symm
    · exact h.2.2 (not_le.mp h1) (not_le.mp h2)

/-- The pruned and the plain selection loops agree everywhere. -/
theorem selectLoop_eq_plain (b : Board) :
    ∀ (moves : List (Fin COLS)) (c : Fin COLS) (sc : XInt),
      selectLoop b moves c sc = selectLoopPlain b moves c sc := by
  intro moves
  induction moves with
  | nil => intro c sc; rfl
  | cons col rest ih =>
    intro c sc
    rw [selectLoop, selectLoopPlain]
    rw [alphabeta_eq_plain]
    by_cases hlt : sc < minimaxP (simulateMove b col Player.two).1 (SEARCH_DEPTH - 1) false
    · rw [if_pos hlt, if_pos hlt, ih]
    · rw [if_neg hlt, if_neg hlt, ih]

/-- The chooser built on pruned search equals the chooser built on plain
minimax on every board. -/
theorem getCpuMove_eq_plain_all (b : Board) : getCpuMove b = getCpuMovePlain b := by
  unfold getCpuMove getCpuMovePlain
  cases hm : getValidMoves b with
  | nil => rfl
  | cons m0 rest =>
    dsimp only
    rw [selectLoop_eq_plain]

/-- C1: with at least one valid move, every per-candidate alpha-beta score of
`getCpuMove`'s search phase (initial window `(-∞, +∞)`) equals the plain
unpruned minimax value of the same simulated board, depth and player to move
(indeed the unrestricted-window equality holds at every node), and
consequently the chooser returns exactly the column of the plain-minimax
selection. -/
theorem alphabeta_refines_plain :
    ∀ b : Board, getValidMoves b ≠ [] →
      (∀ col ∈ getValidMoves b,
        minimaxAB (simulateMove b col Player.two).1 (SEARCH_DEPTH - 1) ⊥ ⊤ false =
          minimaxP (simulateMove b col Player.two).1 (SEARCH_DEPTH - 1) false) ∧
      (∀ (d : Nat) (b' : Board) (m : Bool), minimaxAB b' d ⊥ ⊤ m = minimaxP b' d m) ∧
      getCpuMove b = getCpuMovePlain b :=
  fun b _ => ⟨fun _ _ => alphabeta_eq_plain _ _ _,
    fun d b' m => alphabeta_eq_plain d b' m, getCpuMove_eq_plain_all b⟩

/-- Witness for C1 on the empty board, which has valid moves. -/
theorem alphabeta_refines_plain_witness :
    (∀ col ∈ getValidMoves createBoard,
      minimaxAB (simulateMove createBoard col Player.two).1 (SEARCH_DEPTH - 1) ⊥ ⊤ false =
        minimaxP (simulateMove createBoard col Player.two).1 (SEARCH_DEPTH - 1) false) ∧
    (∀ (d : Nat) (b' : Board) (m : Bool), minimaxAB b' d ⊥ ⊤ m = minimaxP b' d m) ∧
    getCpuMove createBoard = getCpuMovePlain createBoard :=
  alphabeta_refines_plain createBoard (by decide)

end ConnectFour
